import Mathlib

/-!
Rolling number (`hystrix/rolling/rolling.go`).

A shallow embedding of the rolling counter `Number` and of its operations
`NewNumber`, `getCurrentBucket`, `removeOldBuckets`, `Increment`, `UpdateMax`,
`Sum` and `Max`.

Modelling conventions.

* `int64` timestamps are `Int`; the one arithmetic operation of the source on
  them, `now.Unix()-10`, is evaluated with two's complement wrap-around
  (`wrapInt64`).
* `uint64` bucket values are `Nat`; `b.Value++` and `sum += bucket.Value` are
  evaluated modulo `2^64`, the conversion `uint64(n)` is `toUint64`.
* The map `Buckets map[int64]*numberBucket` holds pointers.  It is embedded as
  an association list from timestamps to addresses (the list order is the
  order in which a `range` loop visits the entries), together with a store
  giving the `Value` field of the `numberBucket` at each address and an
  allocation frontier `next`.
* `time.Now()` is an input: every operation takes the clock second(s) it reads
  as arguments.
* The `RWMutex` is embedded by atomicity: each lock-protected section is one
  function on the state, and the concurrent semantics interleaves such
  sections.
-/

namespace Rolling

/-- Address of a `numberBucket` object. -/
abbrev Addr := Nat

/-- Two's complement wrap-around of an integer into the `int64` range. -/
def wrapInt64 (x : Int) : Int := (x + 2 ^ 63) % 2 ^ 64 - 2 ^ 63

/-- The Go conversion `uint64(n)` of a signed integer `n`. -/
def toUint64 (n : Int) : Nat := (n % 2 ^ 64).toNat

/-- Map lookup `m[k]`: the address stored under key `k`, if any. -/
def mapGet : List (Int × Addr) → Int → Option Addr
  | [], _ => none
  | (k', p) :: m, k => if k' = k then some p else mapGet m k

/-- Map assignment `m[k] = p`: replaces the entry of `k` or adds one. -/
def mapSet : List (Int × Addr) → Int → Addr → List (Int × Addr)
  | [], k, p => [(k, p)]
  | (k', p') :: m, k, p => if k' = k then (k, p) :: m else (k', p') :: mapSet m k p

/-- Map deletion `delete(m, k)`. -/
def mapDelete (m : List (Int × Addr)) (k : Int) : List (Int × Addr) :=
  m.filter (fun e => decide (e.1 ≠ k))

/-- The counter `Number`: the map `Buckets`, the `Value` field of every
allocated `numberBucket`, and the next free address. -/
structure Number where
  Buckets : List (Int × Addr)
  Value : Addr → Nat
  next : Addr

/-- Constructor `NewNumber()`: an empty map. -/
def NewNumber : Number :=
  { Buckets := [], Value := fun _ => 0, next := 0 }

/-- The read-locked part of `getCurrentBucket`: `r.Buckets[now.Unix()]`. -/
def lookupBucket (r : Number) (now : Int) : Option Addr :=
  mapGet r.Buckets now

/-- The write-locked part of `getCurrentBucket`:
`r.Buckets[now.Unix()] = &numberBucket{}; bucket = r.Buckets[now.Unix()]`.
A zero-valued bucket is allocated and stored under `now` unconditionally. -/
def createBucket (r : Number) (now : Int) : Number × Addr :=
  ({ Buckets := mapSet r.Buckets now r.next,
     Value := Function.update r.Value r.next 0,
     next := r.next + 1 }, r.next)

/-- Method `getCurrentBucket()` run without interference, reading the clock second
`now`: returns the new state and the address of the bucket. -/
def getCurrentBucket (r : Number) (now : Int) : Number × Addr :=
  match lookupBucket r now with
  | some bucket => (r, bucket)
  | none => createBucket r now

/-- Method `removeOldBuckets()` reading the clock second `now`: ranges over the keys
of the map and deletes each `timestamp <= now.Unix()-10`. -/
def removeOldBuckets (r : Number) (now : Int) : Number :=
  { r with
    Buckets := (r.Buckets.map Prod.fst).foldl
      (fun m timestamp => if timestamp ≤ wrapInt64 (now - 10) then mapDelete m timestamp else m)
      r.Buckets }

/-- The write-locked body of `Increment`: `b.Value++; r.removeOldBuckets()`. -/
def incrementLocked (r : Number) (b : Addr) (now : Int) : Number :=
  removeOldBuckets { r with Value := Function.update r.Value b ((r.Value b + 1) % 2 ^ 64) } now

/-- The write-locked body of `UpdateMax`:
`if uint64(n) > b.Value { b.Value = uint64(n) }; r.removeOldBuckets()`. -/
def updateMaxLocked (r : Number) (b : Addr) (n : Int) (now : Int) : Number :=
  removeOldBuckets
    (if toUint64 n > r.Value b then { r with Value := Function.update r.Value b (toUint64 n) }
     else r) now

/-- Method `Increment()` run without interference; `t1` is the clock second read by
`getCurrentBucket`, `t2` the one read by `removeOldBuckets`. -/
def Increment (r : Number) (t1 t2 : Int) : Number :=
  let gb := getCurrentBucket r t1
  incrementLocked gb.1 gb.2 t2

/-- Method `UpdateMax(n)` run without interference; `t1` is the clock second read by
`getCurrentBucket`, `t2` the one read by `removeOldBuckets`. -/
def UpdateMax (r : Number) (n : Int) (t1 t2 : Int) : Number :=
  let gb := getCurrentBucket r t1
  updateMaxLocked gb.1 gb.2 n t2

/-- Method `Sum(now)`, with `now` standing for `now.Unix()`. -/
def Sum (r : Number) (now : Int) : Nat :=
  r.Buckets.foldl
    (fun sum e => if e.1 ≥ wrapInt64 (now - 10) then (sum + r.Value e.2) % 2 ^ 64 else sum) 0

/-- Method `Max(now)`, with `now` standing for `now.Unix()`. -/
def Max (r : Number) (now : Int) : Nat :=
  r.Buckets.foldl
    (fun max e => if e.1 ≥ wrapInt64 (now - 10) then
        (if r.Value e.2 > max then r.Value e.2 else max) else max) 0

/-- The value of the bucket stored under `ts`, if there is one. -/
def bucketValue (r : Number) (ts : Int) : Option Nat :=
  (mapGet r.Buckets ts).map r.Value

/-- The entries of the map that pass the test `timestamp >= now.Unix()-10`. -/
def window (r : Number) (now : Int) : List (Int × Addr) :=
  r.Buckets.filter (fun e => decide (wrapInt64 (now - 10) ≤ e.1))

/-- The window as the specification of `Sum` words it: the entries whose
timestamp lies in `[now - 10, now]`, both ends included. -/
def specWindow (r : Number) (now : Int) : List (Int × Addr) :=
  r.Buckets.filter (fun e => decide (now - 10 ≤ e.1 ∧ e.1 ≤ now))

/-- The values of a list of map entries. -/
def valuesOf (r : Number) (es : List (Int × Addr)) : List Nat :=
  es.map (fun e => r.Value e.2)

/-- The calls `UpdateMax(n)` for `n` in `ns`, in this order, on a fresh
counter, every call observing the clock second `t`. -/
def UpdateMaxAll (ns : List Int) (t : Int) : Number :=
  ns.foldl (fun r n => UpdateMax r n t t) NewNumber

/-- One `Increment()` per second on a fresh counter: the state after the
calls at the clock seconds `T, T+1, ..., T+k-1`. -/
def IncrementEachSecond (T : Int) : Nat → Number
  | 0 => NewNumber
  | k + 1 => Increment (IncrementEachSecond T k) (T + k) (T + k)

/-- Control point of a goroutine executing `Increment()`: before
`getCurrentBucket`; inside `getCurrentBucket` after a failed lookup at clock
second `now`, the read lock released and the write lock not yet taken; after
`getCurrentBucket` has returned the bucket `b`, waiting for the write lock of
`Increment`; returned. -/
inductive IncrementPc where
  | entry : IncrementPc
  | create (now : Int) : IncrementPc
  | locked (b : Addr) : IncrementPc
  | done : IncrementPc
  deriving DecidableEq

/-- One lock-protected section of `Increment()` executed by a goroutine at
control point `pc`, the clock showing second `clock`. -/
def IncrementStep (clock : Int) (r : Number) : IncrementPc → Number × IncrementPc
  | IncrementPc.entry =>
    match lookupBucket r clock with
    | some bucket => (r, IncrementPc.locked bucket)
    | none => (r, IncrementPc.create clock)
  | IncrementPc.create now => ((createBucket r now).1, IncrementPc.locked (createBucket r now).2)
  | IncrementPc.locked b => (incrementLocked r b clock, IncrementPc.done)
  | IncrementPc.done => (r, IncrementPc.done)

/-- Goroutine `i` executes its next section at clock second `clock`. -/
def stepGoroutine (c : Number × List IncrementPc) (ev : Nat × Int) : Number × List IncrementPc :=
  match c.2.get? ev.1 with
  | none => c
  | some pc => ((IncrementStep ev.2 c.1 pc).1, c.2.set ev.1 (IncrementStep ev.2 c.1 pc).2)

/-- Concurrent execution of `N` calls of `Increment()` on the counter `r`
under a schedule: a list of pairs (goroutine, clock second) saying which
goroutine runs its next section and what the clock shows then. -/
def runSchedule (r : Number) (N : Nat) (schedule : List (Nat × Int)) :
    Number × List IncrementPc :=
  schedule.foldl stepGoroutine (r, List.replicate N IncrementPc.entry)

/-- A mutating call of the counter: `Increment()` or `UpdateMax(n)`. -/
inductive Call where
  | increment : Call
  | updateMax (n : Int) : Call
  deriving DecidableEq

/-- A mutating call that observes one clock second: `c.1` is the call, `c.2`
the second read both by `getCurrentBucket` and by `removeOldBuckets`. -/
def applyCall (r : Number) (c : Call × Int) : Number :=
  match c.1 with
  | Call.increment => Increment r c.2 c.2
  | Call.updateMax n => UpdateMax r n c.2 c.2

/-- A sequence of mutating calls, each with the clock second it observes,
applied in order to a fresh counter. -/
def runCalls (calls : List (Call × Int)) : Number :=
  calls.foldl applyCall NewNumber

/-- The calls `Increment()` at the clock seconds `ts`, in this order, on a
fresh counter. -/
def IncrementAll (ts : List Int) : Number :=
  runCalls (ts.map (fun t => (Call.increment, t)))

/-- Separation of the bucket objects of a counter: no two entries of the map
point to the same `numberBucket`, and every `numberBucket` of the map lies
below the allocation frontier. -/
def separated (r : Number) : Prop :=
  (r.Buckets.map Prod.snd).Nodup ∧ ∀ e ∈ r.Buckets, e.2 < r.next

instance (r : Number) : Decidable (separated r) := by
  unfold separated
  exact inferInstance

/-! ## Arithmetic -/

theorem wrapInt64_of_inRange (x : Int) (hlo : -(2 ^ 63) ≤ x) (hhi : x < 2 ^ 63) :
    wrapInt64 x = x := by
  unfold wrapInt64
  omega

theorem toUint64_of_nonneg (n : Int) (h0 : 0 ≤ n) (hhi : n < 2 ^ 63) :
    (toUint64 n : Int) = n := by
  unfold toUint64
  omega

/-! ## The two read operations as folds over the window -/

theorem foldl_sum_window (val : Addr → Nat) (th : Int) (l : List (Int × Addr)) (acc : Nat)
    (hacc : acc < 2 ^ 64) :
    l.foldl (fun sum e => if e.1 ≥ th then (sum + val e.2) % 2 ^ 64 else sum) acc
      = (acc + ((l.filter (fun e => decide (th ≤ e.1))).map (fun e => val e.2)).sum) % 2 ^ 64 := by
  induction l generalizing acc with
  | nil =>
    simp only [List.foldl_nil, List.filter_nil, List.map_nil, List.sum_nil, Nat.add_zero]
    exact (Nat.mod_eq_of_lt hacc).symm
  | cons e l ih =>
    by_cases h : th ≤ e.1
    · have hlt : (acc + val e.2) % 2 ^ 64 < 2 ^ 64 := Nat.mod_lt _ (by norm_num)
      simp only [List.foldl_cons, ge_iff_le, h, if_true, decide_True, List.filter_cons_of_pos,
        List.map_cons, List.sum_cons]
      rw [ih _ hlt, Nat.mod_add_mod, Nat.add_assoc]
    · simp only [List.foldl_cons, ge_iff_le, h, if_false, decide_False, Bool.false_eq_true,
        not_false_eq_true, List.filter_cons_of_neg]
      exact ih _ hacc

theorem Sum_eq_window_sum (r : Number) (now : Int) :
    Sum r now = (valuesOf r (window r now)).sum % 2 ^ 64 := by
  unfold Sum valuesOf window
  rw [foldl_sum_window r.Value (wrapInt64 (now - 10)) r.Buckets 0 (by norm_num)]
  simp

theorem foldl_max_window (val : Addr → Nat) (th : Int) (l : List (Int × Addr)) (acc : Nat) :
    l.foldl (fun max e => if e.1 ≥ th then (if val e.2 > max then val e.2 else max) else max) acc
      = ((l.filter (fun e => decide (th ≤ e.1))).map (fun e => val e.2)).foldl Nat.max acc := by
  induction l generalizing acc with
  | nil => rfl
  | cons e l ih =>
    by_cases h : th ≤ e.1
    · simp only [List.foldl_cons, ge_iff_le, h, if_true, decide_True, List.filter_cons_of_pos,
        List.map_cons]
      rw [ih]
      congr 1
      by_cases hv : val e.2 > acc
      · rw [if_pos hv]; exact (Nat.max_eq_right (Nat.le_of_lt hv)).symm
      · rw [if_neg hv]; exact (Nat.max_eq_left (Nat.le_of_not_lt hv)).symm
    · simp only [List.foldl_cons, ge_iff_le, h, if_false, decide_False, Bool.false_eq_true,
        not_false_eq_true, List.filter_cons_of_neg]
      exact ih _

theorem Max_eq_window_max (r : Number) (now : Int) :
    Max r now = (valuesOf r (window r now)).foldl Nat.max 0 := by
  unfold Max valuesOf window
  exact foldl_max_window r.Value (wrapInt64 (now - 10)) r.Buckets 0

theorem le_foldl_max (l : List Nat) (acc : Nat) : acc ≤ l.foldl Nat.max acc := by
  induction l generalizing acc with
  | nil => exact Nat.le_refl _
  | cons v l ih => exact Nat.le_trans (Nat.le_max_left acc v) (ih _)

theorem mem_le_foldl_max (l : List Nat) (acc v : Nat) (hv : v ∈ l) : v ≤ l.foldl Nat.max acc := by
  induction l generalizing acc with
  | nil => cases hv
  | cons w l ih =>
    rcases List.mem_cons.mp hv with h | h
    · subst h
      exact Nat.le_trans (Nat.le_max_right acc v) (le_foldl_max l _)
    · exact ih _ h

theorem foldl_max_mem (l : List Nat) (acc : Nat) :
    l.foldl Nat.max acc = acc ∨ l.foldl Nat.max acc ∈ l := by
  induction l generalizing acc with
  | nil => exact Or.inl rfl
  | cons w l ih =>
    rcases ih (Nat.max acc w) with h | h
    · rcases Nat.le_total acc w with hle | hle
      · right
        rw [List.foldl_cons, h]
        have : Nat.max acc w = w := Nat.max_eq_right hle
        rw [this]; exact List.mem_cons_self _ _
      · left
        rw [List.foldl_cons, h]
        exact Nat.max_eq_left hle
    · right
      exact List.mem_cons_of_mem _ h

/-! ## The map operations -/

theorem mapGet_mapSet_same (m : List (Int × Addr)) (k : Int) (p : Addr) :
    mapGet (mapSet m k p) k = some p := by
  induction m with
  | nil => simp [mapSet, mapGet]
  | cons e m ih =>
    obtain ⟨k', p'⟩ := e
    by_cases h : k' = k
    · simp [mapSet, mapGet, h]
    · simp [mapSet, mapGet, h, ih]

theorem mapGet_filter_of_pos (q : Int → Bool) (m : List (Int × Addr)) (k : Int) (hk : q k = true) :
    mapGet (m.filter (fun e => q e.1)) k = mapGet m k := by
  induction m with
  | nil => rfl
  | cons e m ih =>
    obtain ⟨k', p'⟩ := e
    by_cases h : k' = k
    · subst h
      simp [List.filter_cons, hk, mapGet]
    · by_cases hq : q k' = true
      · simp [List.filter_cons, hq, mapGet, h, ih]
      · simp [List.filter_cons, hq, mapGet, h, ih]

theorem foldl_delete_eq_filter (th : Int) (ks : List Int) (m : List (Int × Addr)) :
    ks.foldl (fun m timestamp => if timestamp ≤ th then mapDelete m timestamp else m) m
      = m.filter (fun e => !(decide (e.1 ∈ ks) && decide (e.1 ≤ th))) := by
  induction ks generalizing m with
  | nil => simp
  | cons k ks ih =>
    rw [List.foldl_cons, ih]
    by_cases hk : k ≤ th
    · rw [if_pos hk]
      unfold mapDelete
      rw [List.filter_filter]
      apply List.filter_congr
      intro e _
      by_cases hek : e.1 = k
      · simp [hek, hk]
      · simp [hek]
    · rw [if_neg hk]
      apply List.filter_congr
      intro e _
      by_cases hek : e.1 = k
      · simp [hek, hk]
      · simp [hek]

/-- The loop of `removeOldBuckets` keeps exactly the entries whose timestamp
fails `timestamp <= now.Unix()-10`. -/
theorem removeOldBuckets_Buckets (r : Number) (now : Int) :
    (removeOldBuckets r now).Buckets
      = r.Buckets.filter (fun e => decide (wrapInt64 (now - 10) < e.1)) := by
  unfold removeOldBuckets
  simp only
  rw [foldl_delete_eq_filter]
  apply List.filter_congr
  intro e he
  have hmem : e.1 ∈ r.Buckets.map Prod.fst := List.mem_map.mpr ⟨e, he, rfl⟩
  by_cases hle : e.1 ≤ wrapInt64 (now - 10)
  · have hlt : ¬ wrapInt64 (now - 10) < e.1 := not_lt.mpr hle
    simp [hmem, hle, hlt]
  · have hlt : wrapInt64 (now - 10) < e.1 := not_le.mp hle
    simp [hmem, hle, hlt]

theorem removeOldBuckets_Value (r : Number) (now : Int) :
    (removeOldBuckets r now).Value = r.Value := rfl

theorem removeOldBuckets_next (r : Number) (now : Int) :
    (removeOldBuckets r now).next = r.next := rfl

theorem mapGet_removeOldBuckets (r : Number) (now k : Int) (hk : wrapInt64 (now - 10) < k) :
    mapGet (removeOldBuckets r now).Buckets k = mapGet r.Buckets k := by
  rw [removeOldBuckets_Buckets]
  exact mapGet_filter_of_pos (fun x => decide (wrapInt64 (now - 10) < x)) r.Buckets k
    (decide_eq_true hk)

/-- After `getCurrentBucket` the map sends `now` to the returned bucket. -/
theorem mapGet_getCurrentBucket (r : Number) (now : Int) :
    mapGet (getCurrentBucket r now).1.Buckets now = some (getCurrentBucket r now).2 := by
  unfold getCurrentBucket lookupBucket
  cases h : mapGet r.Buckets now with
  | some b => simpa using h
  | none => simp [createBucket, mapGet_mapSet_same]

/-- The bucket returned by `getCurrentBucket` holds the value the bucket of
`now` had before, or 0 when it has just been created. -/
theorem Value_getCurrentBucket (r : Number) (now : Int) :
    (getCurrentBucket r now).1.Value (getCurrentBucket r now).2
      = (bucketValue r now).getD 0 := by
  unfold getCurrentBucket lookupBucket bucketValue
  cases h : mapGet r.Buckets now with
  | some b => simp
  | none => simp [createBucket]

theorem bucketValue_incrementLocked (r : Number) (b : Addr) (t now : Int)
    (hb : mapGet r.Buckets t = some b) (ht : wrapInt64 (now - 10) < t) :
    bucketValue (incrementLocked r b now) t = some ((r.Value b + 1) % 2 ^ 64) := by
  unfold bucketValue incrementLocked
  rw [mapGet_removeOldBuckets _ _ _ ht, removeOldBuckets_Value]
  simp [hb]

theorem bucketValue_updateMaxLocked (r : Number) (b : Addr) (n t now : Int)
    (hb : mapGet r.Buckets t = some b) (ht : wrapInt64 (now - 10) < t) :
    bucketValue (updateMaxLocked r b n now) t = some (Nat.max (r.Value b) (toUint64 n)) := by
  unfold bucketValue updateMaxLocked
  rw [mapGet_removeOldBuckets _ _ _ ht, removeOldBuckets_Value]
  by_cases h : toUint64 n > r.Value b
  · rw [if_pos h]
    simp only [hb, Option.map_some', Function.update_same]
    exact congrArg some (Nat.max_eq_right (Nat.le_of_lt h)).symm
  · rw [if_neg h]
    simp only [hb, Option.map_some']
    exact congrArg some (Nat.max_eq_left (Nat.le_of_not_lt h)).symm

theorem clock_gt_threshold (t : Int) (hlo : -(2 ^ 63) + 10 ≤ t) (hhi : t < 2 ^ 63) :
    wrapInt64 (t - 10) < t := by
  rw [wrapInt64_of_inRange _ (by omega) (by omega)]
  omega

theorem bucketValue_Increment (r : Number) (t : Int) (hlo : -(2 ^ 63) + 10 ≤ t)
    (hhi : t < 2 ^ 63) :
    bucketValue (Increment r t t) t = some (((bucketValue r t).getD 0 + 1) % 2 ^ 64) := by
  unfold Increment
  simp only
  rw [bucketValue_incrementLocked _ _ t t (mapGet_getCurrentBucket r t)
    (clock_gt_threshold t hlo hhi), Value_getCurrentBucket]

theorem bucketValue_UpdateMax (r : Number) (n t : Int) (hlo : -(2 ^ 63) + 10 ≤ t)
    (hhi : t < 2 ^ 63) :
    bucketValue (UpdateMax r n t t) t
      = some (Nat.max ((bucketValue r t).getD 0) (toUint64 n)) := by
  unfold UpdateMax
  simp only
  rw [bucketValue_updateMaxLocked _ _ n t t (mapGet_getCurrentBucket r t)
    (clock_gt_threshold t hlo hhi), Value_getCurrentBucket]

theorem foldl_max_zero_mem (l : List Nat) (hne : l ≠ []) : l.foldl Nat.max 0 ∈ l := by
  rcases foldl_max_mem l 0 with h0 | hm
  · obtain ⟨v, hv⟩ := List.exists_mem_of_ne_nil _ hne
    have hle := mem_le_foldl_max l 0 v hv
    rw [h0] at hle
    have hv0 : v = 0 := Nat.le_zero.mp hle
    rw [h0, ← hv0]
    exact hv
  · exact hm

/-- Eviction by `removeOldBuckets` changes nothing when no timestamp is old. -/
theorem removeOldBuckets_eq_self (r : Number) (now : Int)
    (h : ∀ e ∈ r.Buckets, wrapInt64 (now - 10) < e.1) : removeOldBuckets r now = r := by
  have hB := removeOldBuckets_Buckets r now
  have hfil : r.Buckets.filter (fun e => decide (wrapInt64 (now - 10) < e.1)) = r.Buckets :=
    List.filter_eq_self.mpr (fun e he => decide_eq_true (h e he))
  rw [hfil] at hB
  cases r
  simp only [removeOldBuckets] at hB ⊢
  rw [hB]

theorem removeOldBuckets_recent (r : Number) (now : Int) :
    ∀ e ∈ (removeOldBuckets r now).Buckets, wrapInt64 (now - 10) < e.1 := by
  intro e he
  rw [removeOldBuckets_Buckets] at he
  exact of_decide_eq_true (List.mem_filter.mp he).2

theorem UpdateMax_recent (r : Number) (n t1 t2 : Int) :
    ∀ e ∈ (UpdateMax r n t1 t2).Buckets, wrapInt64 (t2 - 10) < e.1 := by
  unfold UpdateMax updateMaxLocked
  exact removeOldBuckets_recent _ _

theorem Increment_recent (r : Number) (t1 t2 : Int) :
    ∀ e ∈ (Increment r t1 t2).Buckets, wrapInt64 (t2 - 10) < e.1 := by
  unfold Increment incrementLocked
  exact removeOldBuckets_recent _ _

/-- A sample no larger than the value of the current bucket leaves the whole
state as it is, provided no bucket is old. -/
theorem UpdateMax_eq_self (r : Number) (n t : Int) (v : Nat)
    (hrec : ∀ e ∈ r.Buckets, wrapInt64 (t - 10) < e.1)
    (hv : bucketValue r t = some v) (hn : toUint64 n ≤ v) : UpdateMax r n t t = r := by
  unfold bucketValue at hv
  cases hb : mapGet r.Buckets t with
  | none => rw [hb] at hv; cases hv
  | some b =>
    rw [hb] at hv
    have hvb : r.Value b = v := by simpa using hv
    have hnot : ¬ toUint64 n > r.Value b := by omega
    unfold UpdateMax getCurrentBucket lookupBucket
    simp only [hb]
    unfold updateMaxLocked
    rw [if_neg hnot]
    exact removeOldBuckets_eq_self r t hrec

theorem bucketValue_foldl_UpdateMax (t : Int) (hlo : -(2 ^ 63) + 10 ≤ t) (hhi : t < 2 ^ 63)
    (ns : List Int) (r : Number) (hne : ns ≠ []) :
    bucketValue (ns.foldl (fun r n => UpdateMax r n t t) r) t
      = some ((ns.map toUint64).foldl Nat.max ((bucketValue r t).getD 0)) := by
  induction ns generalizing r with
  | nil => exact absurd rfl hne
  | cons n ns ih =>
    rw [List.foldl_cons]
    by_cases hns : ns = []
    · subst hns
      simpa using bucketValue_UpdateMax r n t hlo hhi
    · rw [ih _ hns, bucketValue_UpdateMax r n t hlo hhi]
      rfl

theorem foldl_UpdateMax_recent (t : Int) (ns : List Int) (r : Number) (hne : ns ≠ []) :
    ∀ e ∈ (ns.foldl (fun r n => UpdateMax r n t t) r).Buckets, wrapInt64 (t - 10) < e.1 := by
  induction ns generalizing r with
  | nil => exact absurd rfl hne
  | cons n ns ih =>
    rw [List.foldl_cons]
    by_cases hns : ns = []
    · subst hns
      exact UpdateMax_recent r n t t
    · exact ih _ hns

/-! ## The keys of the map -/

theorem keys_mapSet (m : List (Int × Addr)) (k : Int) (p : Addr) :
    (mapSet m k p).map Prod.fst
      = if k ∈ m.map Prod.fst then m.map Prod.fst else m.map Prod.fst ++ [k] := by
  induction m with
  | nil => simp [mapSet]
  | cons e m ih =>
    obtain ⟨k', p'⟩ := e
    by_cases h : k' = k
    · subst h
      simp [mapSet]
    · have hne : ¬ k = k' := fun hk => h hk.symm
      by_cases hmem : k ∈ m.map Prod.fst
      · rw [if_pos hmem] at ih
        have hmem2 : k ∈ ((k', p') :: m).map Prod.fst := by
          rw [List.map_cons]; exact List.mem_cons_of_mem _ hmem
        rw [if_pos hmem2]
        simp only [mapSet, h, if_false, List.map_cons, ih]
      · rw [if_neg hmem] at ih
        have hmem2 : ¬ k ∈ ((k', p') :: m).map Prod.fst := by
          rw [List.map_cons, List.mem_cons]
          exact fun hor => hor.elim hne hmem
        rw [if_neg hmem2]
        simp only [mapSet, h, if_false, List.map_cons, ih, List.cons_append]

theorem keys_mapSet_nodup (m : List (Int × Addr)) (k : Int) (p : Addr)
    (hnd : (m.map Prod.fst).Nodup) : ((mapSet m k p).map Prod.fst).Nodup := by
  rw [keys_mapSet]
  by_cases hmem : k ∈ m.map Prod.fst
  · rw [if_pos hmem]; exact hnd
  · rw [if_neg hmem]
    exact List.nodup_append.mpr ⟨hnd, List.nodup_singleton k, by
      intro a ha hb
      rw [List.mem_singleton] at hb
      exact hmem (hb ▸ ha)⟩

theorem mem_keys_mapSet (m : List (Int × Addr)) (k : Int) (p : Addr) (x : Int)
    (hx : x ∈ (mapSet m k p).map Prod.fst) : x ∈ m.map Prod.fst ∨ x = k := by
  rw [keys_mapSet] at hx
  by_cases hmem : k ∈ m.map Prod.fst
  · rw [if_pos hmem] at hx; exact Or.inl hx
  · rw [if_neg hmem, List.mem_append, List.mem_singleton] at hx; exact hx

theorem keys_getCurrentBucket_nodup (r : Number) (now : Int)
    (hnd : (r.Buckets.map Prod.fst).Nodup) :
    ((getCurrentBucket r now).1.Buckets.map Prod.fst).Nodup := by
  unfold getCurrentBucket lookupBucket
  cases h : mapGet r.Buckets now with
  | some b => exact hnd
  | none => exact keys_mapSet_nodup _ _ _ hnd

theorem mem_keys_getCurrentBucket (r : Number) (now x : Int)
    (hx : x ∈ (getCurrentBucket r now).1.Buckets.map Prod.fst) :
    x ∈ r.Buckets.map Prod.fst ∨ x = now := by
  unfold getCurrentBucket lookupBucket at hx
  cases h : mapGet r.Buckets now with
  | some b => rw [h] at hx; exact Or.inl hx
  | none => rw [h] at hx; exact mem_keys_mapSet _ _ _ _ hx

theorem keys_removeOldBuckets_sublist (r : Number) (now : Int) :
    ((removeOldBuckets r now).Buckets.map Prod.fst).Sublist (r.Buckets.map Prod.fst) := by
  rw [removeOldBuckets_Buckets]
  exact List.Sublist.map _ (List.filter_sublist _)

theorem mem_keys_removeOldBuckets (r : Number) (now x : Int)
    (hx : x ∈ (removeOldBuckets r now).Buckets.map Prod.fst) : wrapInt64 (now - 10) < x := by
  obtain ⟨e, he, rfl⟩ := List.mem_map.mp hx
  exact removeOldBuckets_recent r now e he

/-- The keys of the map after `Increment()`: still pairwise distinct, each an
old key or the second `t1` of the call, none old with respect to `t2`. -/
theorem keys_Increment (r : Number) (t1 t2 : Int) (hnd : (r.Buckets.map Prod.fst).Nodup) :
    ((Increment r t1 t2).Buckets.map Prod.fst).Nodup ∧
    ∀ x ∈ (Increment r t1 t2).Buckets.map Prod.fst,
      (x ∈ r.Buckets.map Prod.fst ∨ x = t1) ∧ wrapInt64 (t2 - 10) < x := by
  unfold Increment incrementLocked
  simp only
  constructor
  · exact List.Nodup.sublist (keys_removeOldBuckets_sublist _ t2)
      (keys_getCurrentBucket_nodup r t1 hnd)
  · intro x hx
    exact ⟨mem_keys_getCurrentBucket r t1 x
        ((keys_removeOldBuckets_sublist _ t2).subset hx),
      mem_keys_removeOldBuckets _ t2 x hx⟩

/-- The keys of the map after `UpdateMax(n)`: still pairwise distinct, each an
old key or the second `t1` of the call, none old with respect to `t2`. -/
theorem keys_UpdateMax (r : Number) (n t1 t2 : Int) (hnd : (r.Buckets.map Prod.fst).Nodup) :
    ((UpdateMax r n t1 t2).Buckets.map Prod.fst).Nodup ∧
    ∀ x ∈ (UpdateMax r n t1 t2).Buckets.map Prod.fst,
      (x ∈ r.Buckets.map Prod.fst ∨ x = t1) ∧ wrapInt64 (t2 - 10) < x := by
  unfold UpdateMax updateMaxLocked
  simp only
  by_cases hgt : toUint64 n > (getCurrentBucket r t1).1.Value (getCurrentBucket r t1).2
  · rw [if_pos hgt]
    constructor
    · exact List.Nodup.sublist (keys_removeOldBuckets_sublist _ t2)
        (keys_getCurrentBucket_nodup r t1 hnd)
    · intro x hx
      exact ⟨mem_keys_getCurrentBucket r t1 x
          ((keys_removeOldBuckets_sublist _ t2).subset hx),
        mem_keys_removeOldBuckets _ t2 x hx⟩
  · rw [if_neg hgt]
    constructor
    · exact List.Nodup.sublist (keys_removeOldBuckets_sublist _ t2)
        (keys_getCurrentBucket_nodup r t1 hnd)
    · intro x hx
      exact ⟨mem_keys_getCurrentBucket r t1 x
          ((keys_removeOldBuckets_sublist _ t2).subset hx),
        mem_keys_removeOldBuckets _ t2 x hx⟩

/-- Pairwise distinct integers of a half-open interval `(a, b]` are at most
`b - a` many. -/
theorem length_le_of_nodup_Ioc (l : List Int) (a b : Int) (hnd : l.Nodup)
    (hin : ∀ x ∈ l, a < x ∧ x ≤ b) : l.length ≤ (b - a).toNat := by
  have hsub : l.toFinset ⊆ Finset.Ioc a b := by
    intro x hx
    rw [List.mem_toFinset] at hx
    exact Finset.mem_Ioc.mpr (hin x hx)
  have hcard := Finset.card_le_card hsub
  rw [List.toFinset_card_of_nodup hnd, Int.card_Ioc] at hcard
  exact hcard

theorem keys_IncrementEachSecond (T : Int) (k : Nat) :
    ((IncrementEachSecond T k).Buckets.map Prod.fst).Nodup ∧
    ∀ x ∈ (IncrementEachSecond T k).Buckets.map Prod.fst, x < T + k := by
  induction k with
  | zero => simp [IncrementEachSecond, NewNumber]
  | succ k ih =>
    have h := keys_Increment (IncrementEachSecond T k) (T + k) (T + k) ih.1
    refine ⟨h.1, fun x hx => ?_⟩
    have hx2 := (h.2 x hx).1
    rcases hx2 with hold | hnew
    · have := ih.2 x hold
      push_cast
      omega
    · push_cast
      omega

/-- A single goroutine running alone through its sections performs
`Increment()`: the interleaving semantics restricted to one goroutine is the
sequential one. -/
theorem runSchedule_single (r : Number) (t1 t2 : Int) :
    (runSchedule r 1 [(0, t1), (0, t2), (0, t2)]).1 = Increment r t1 t2 ∧
    (runSchedule r 1 [(0, t1), (0, t2), (0, t2)]).2 = [IncrementPc.done] := by
  unfold runSchedule Increment getCurrentBucket
  cases h : lookupBucket r t1 with
  | some b => simp [stepGoroutine, IncrementStep, h]
  | none => simp [stepGoroutine, IncrementStep, h]

/-! ## Claims about `Sum` and `Max` -/

/-- C1 (as stated, refuted): after one `Increment()` at clock second 100 the
call `Sum(now)` with `now.Unix() = 50` returns 1, while the buckets with
timestamp in `[now - 10, now]` add up to 0: a bucket newer than `now` is
counted. -/
theorem Sum_counts_future_bucket :
    Sum (Increment NewNumber 100 100) 50 = 1 ∧
    (valuesOf (Increment NewNumber 100 100)
      (specWindow (Increment NewNumber 100 100) 50)).sum % 2 ^ 64 = 0 := by
  decide

/-- C1 (amended): for every counter state and every instant `now`, `Sum(now)`
is the sum, as a `uint64`, of the values of exactly the buckets whose
timestamp `ts` passes `ts >= now.Unix()-10` (the subtraction being the
`int64` one); there is no upper bound on `ts`.  When `now.Unix()-10` does not
underflow these are the buckets with `now.Unix() - 10 <= ts`. -/
theorem Sum_eq_sum_of_window (r : Number) (now : Int) :
    Sum r now
        = (valuesOf r (r.Buckets.filter (fun e => decide (wrapInt64 (now - 10) ≤ e.1)))).sum
            % 2 ^ 64 ∧
      (-(2 ^ 63) + 10 ≤ now → now < 2 ^ 63 →
        Sum r now
          = (valuesOf r (r.Buckets.filter (fun e => decide (now - 10 ≤ e.1)))).sum % 2 ^ 64) := by
  refine ⟨Sum_eq_window_sum r now, fun hlo hhi => ?_⟩
  have hw : wrapInt64 (now - 10) = now - 10 := wrapInt64_of_inRange _ (by omega) (by omega)
  have h := Sum_eq_window_sum r now
  unfold window at h
  rw [hw] at h
  exact h

/-- C1 (amended), instance: one bucket at second 100; `Sum` at second 105
includes it. -/
theorem Sum_eq_sum_of_window_witness :
    Sum (Increment NewNumber 100 100) 105
      = (valuesOf (Increment NewNumber 100 100)
          ((Increment NewNumber 100 100).Buckets.filter
            (fun e => decide ((105 : Int) - 10 ≤ e.1)))).sum % 2 ^ 64 :=
  (Sum_eq_sum_of_window (Increment NewNumber 100 100) 105).2 (by decide) (by decide)

/-- C2: `Max(now)` ranges over the same buckets as `Sum(now)`: with `window r
now` the entries passing `timestamp >= now.Unix()-10`, `Sum(now)` is the
`uint64` total of their values, `Max(now)` is 0 when there is none, and
otherwise `Max(now)` is the value of one of them and no smaller than the value
of any of them. -/
theorem Max_eq_greatest_of_Sum_window (r : Number) (now : Int) :
    Sum r now = (valuesOf r (window r now)).sum % 2 ^ 64 ∧
    (window r now = [] → Max r now = 0) ∧
    (window r now ≠ [] → Max r now ∈ valuesOf r (window r now)) ∧
    (∀ v ∈ valuesOf r (window r now), v ≤ Max r now) := by
  refine ⟨Sum_eq_window_sum r now, ?_, ?_, ?_⟩
  · intro h
    rw [Max_eq_window_max, h]
    rfl
  · intro h
    rw [Max_eq_window_max]
    rcases foldl_max_mem (valuesOf r (window r now)) 0 with h0 | hm
    · rw [h0]
      obtain ⟨e, he⟩ := List.exists_mem_of_ne_nil _ h
      have hmem : r.Value e.2 ∈ valuesOf r (window r now) :=
        List.mem_map.mpr ⟨e, he, rfl⟩
      have hle := mem_le_foldl_max (valuesOf r (window r now)) 0 _ hmem
      rw [h0] at hle
      have : r.Value e.2 = 0 := Nat.le_zero.mp hle
      rw [← this]
      exact hmem
    · exact hm
  · intro v hv
    rw [Max_eq_window_max]
    exact mem_le_foldl_max _ 0 v hv

/-- C2, instance: buckets 3 (second 100) and 7 (second 101); at second 105
both are in the window and `Max` is 7. -/
theorem Max_eq_greatest_of_Sum_window_witness :
    window (UpdateMax (UpdateMax NewNumber 3 100 100) 7 101 101) 105 ≠ [] ∧
    Max (UpdateMax (UpdateMax NewNumber 3 100 100) 7 101 101) 105 = 7 ∧
    Max (UpdateMax (UpdateMax NewNumber 3 100 100) 7 101 101) 105
      ∈ valuesOf (UpdateMax (UpdateMax NewNumber 3 100 100) 7 101 101)
          (window (UpdateMax (UpdateMax NewNumber 3 100 100) 7 101 101) 105) :=
  ⟨by decide, by decide,
    (Max_eq_greatest_of_Sum_window
      (UpdateMax (UpdateMax NewNumber 3 100 100) 7 101 101) 105).2.2.1 (by decide)⟩

/-- C8: on a fresh counter `Sum(now)` and `Max(now)` are 0 for every `now`. -/
theorem Sum_Max_NewNumber (now : Int) : Sum NewNumber now = 0 ∧ Max NewNumber now = 0 :=
  ⟨rfl, rfl⟩

/-! ## Claims about `Increment` and `UpdateMax` -/

/-- C3: for every state and every clock second `t` read by the call,
`Increment()` leaves a bucket for `t` in the map whose value is the previous
value of the bucket for `t` plus 1 in `uint64` arithmetic (the previous value
being 0 when no bucket for `t` existed); that is the previous value plus 1
whenever this fits in a `uint64`.  When no bucket for `t` existed,
`getCurrentBucket` first inserts a zero-valued one. -/
theorem Increment_adds_one (r : Number) (t : Int) (hlo : -(2 ^ 63) + 10 ≤ t)
    (hhi : t < 2 ^ 63) :
    bucketValue (Increment r t t) t = some (((bucketValue r t).getD 0 + 1) % 2 ^ 64) ∧
    ((bucketValue r t).getD 0 + 1 < 2 ^ 64 →
      bucketValue (Increment r t t) t = some ((bucketValue r t).getD 0 + 1)) ∧
    (bucketValue r t = none → bucketValue (getCurrentBucket r t).1 t = some 0) := by
  refine ⟨bucketValue_Increment r t hlo hhi, fun hfit => ?_, fun hnone => ?_⟩
  · rw [bucketValue_Increment r t hlo hhi, Nat.mod_eq_of_lt hfit]
  · have hget : mapGet r.Buckets t = none := by
      unfold bucketValue at hnone
      cases h : mapGet r.Buckets t with
      | none => rfl
      | some b => rw [h] at hnone; cases hnone
    unfold bucketValue getCurrentBucket lookupBucket
    rw [hget]
    simp [createBucket, mapGet_mapSet_same]

/-- C3, instances: a first `Increment()` at second 100 gives the bucket the
value 1, a second one the value 2. -/
theorem Increment_adds_one_witness :
    bucketValue (Increment NewNumber 100 100) 100 = some 1 ∧
    bucketValue (Increment (Increment NewNumber 100 100) 100 100) 100 = some 2 :=
  ⟨(Increment_adds_one NewNumber 100 (by decide) (by decide)).2.1 (by decide),
   (Increment_adds_one (Increment NewNumber 100 100) 100 (by decide) (by decide)).2.1
     (by decide)⟩

/-- C4: for every state, every clock second `t` and every non-negative sample
`n`, after `UpdateMax(n)` the bucket for `t` holds `max(old, n)`, where `old`
is its previous value (0 for a newly created bucket): `n` if `n` is greater
than `old`, and `old` otherwise. -/
theorem UpdateMax_sets_max (r : Number) (n t : Int) (hn0 : 0 ≤ n) (hn : n < 2 ^ 63)
    (hlo : -(2 ^ 63) + 10 ≤ t) (hhi : t < 2 ^ 63) :
    bucketValue (UpdateMax r n t t) t = some (max ((bucketValue r t).getD 0) n.toNat) ∧
    ((bucketValue r t).getD 0 < n.toNat → bucketValue (UpdateMax r n t t) t = some n.toNat) ∧
    (n.toNat ≤ (bucketValue r t).getD 0 →
      bucketValue (UpdateMax r n t t) t = some ((bucketValue r t).getD 0)) := by
  have hcast : toUint64 n = n.toNat := by
    have := toUint64_of_nonneg n hn0 hn
    omega
  have h := bucketValue_UpdateMax r n t hlo hhi
  rw [hcast] at h
  refine ⟨h, fun hgt => ?_, fun hle => ?_⟩
  · rw [h]
    exact congrArg some (Nat.max_eq_right (Nat.le_of_lt hgt))
  · rw [h]
    exact congrArg some (Nat.max_eq_left hle)

/-- C4, instances: on a bucket holding 7, `UpdateMax(9)` stores 9 and
`UpdateMax(3)` leaves 7. -/
theorem UpdateMax_sets_max_witness :
    bucketValue (UpdateMax (UpdateMax NewNumber 7 100 100) 9 100 100) 100 = some 9 ∧
    bucketValue (UpdateMax (UpdateMax NewNumber 7 100 100) 3 100 100) 100 = some 7 :=
  ⟨(UpdateMax_sets_max (UpdateMax NewNumber 7 100 100) 9 100 (by decide) (by decide)
      (by decide) (by decide)).2.1 (by decide),
   (UpdateMax_sets_max (UpdateMax NewNumber 7 100 100) 3 100 (by decide) (by decide)
      (by decide) (by decide)).2.2 (by decide)⟩

/-- C5 (the code at a negative sample): on a bucket holding 5, so that
`Max(now)` is 5, the call `UpdateMax(-1)` stores `uint64(-1) = 2^64 - 1` in
the bucket and `Max(now)` becomes `2^64 - 1`: the negative sample is neither
rejected nor clamped and raises the recorded maximum. -/
theorem UpdateMax_negative_raises_max :
    bucketValue (UpdateMax NewNumber 5 100 100) 100 = some 5 ∧
    Max (UpdateMax NewNumber 5 100 100) 100 = 5 ∧
    bucketValue (UpdateMax (UpdateMax NewNumber 5 100 100) (-1) 100 100) 100
      = some 18446744073709551615 ∧
    Max (UpdateMax (UpdateMax NewNumber 5 100 100) (-1) 100 100) 100
      = 18446744073709551615 := by
  decide

/-- C7: after a single `Increment()` at clock second `T` on a fresh counter,
`Sum` at second `T + d` is 1 when `d <= 10` and 0 when `d >= 11`. -/
theorem Sum_after_single_Increment (T : Int) (d : Nat) (hlo : -(2 ^ 63) + 10 ≤ T)
    (hhi : T + d < 2 ^ 63) :
    Sum (Increment NewNumber T T) (T + d) = if d ≤ 10 then 1 else 0 := by
  have hT : wrapInt64 (T - 10) = T - 10 := wrapInt64_of_inRange _ (by omega) (by omega)
  have hTd : wrapInt64 (T + d - 10) = T + d - 10 :=
    wrapInt64_of_inRange _ (by omega) (by omega)
  have hkeep : ¬ T ≤ T - 10 := by omega
  have hB : (Increment NewNumber T T).Buckets = [(T, 0)] := by
    simp [Increment, getCurrentBucket, lookupBucket, createBucket, incrementLocked,
      removeOldBuckets, NewNumber, mapGet, mapSet, hT, hkeep]
  have hV : (Increment NewNumber T T).Value 0 = 1 := by
    simp [Increment, getCurrentBucket, lookupBucket, createBucket, incrementLocked,
      removeOldBuckets, NewNumber, mapGet]
  unfold Sum
  rw [hB, hTd]
  by_cases hd : d ≤ 10
  · have hin : T ≥ T + ↑d - 10 := by omega
    simp [hd, hin, hV]
  · have hout : ¬ T ≥ T + ↑d - 10 := by omega
    simp [hd, hout]

/-- C7, instances: `Increment()` at `T = 100`; `Sum(T+9s) = 1`,
`Sum(T+10s) = 1` and `Sum(T+11s) = 0`. -/
theorem Sum_after_single_Increment_witness :
    Sum (Increment NewNumber 100 100) (100 + (9 : Nat)) = 1 ∧
    Sum (Increment NewNumber 100 100) (100 + (10 : Nat)) = 1 ∧
    Sum (Increment NewNumber 100 100) (100 + (11 : Nat)) = 0 :=
  ⟨Sum_after_single_Increment 100 9 (by decide) (by decide),
   Sum_after_single_Increment 100 10 (by decide) (by decide),
   Sum_after_single_Increment 100 11 (by decide) (by decide)⟩

/-- C6: for every non-empty list `ns` of non-negative samples submitted through
`UpdateMax` calls that all observe the clock second `t`, starting from a fresh
counter, the final value of the bucket of `t` is the maximum of the list (an
element of the list that no element exceeds); every permutation of the list
gives the same final value; and replaying a sample no larger than the current
value leaves the whole state unchanged. -/
theorem UpdateMaxAll_eq_maximum (ns : List Int) (t : Int) (hne : ns ≠ [])
    (hns : ∀ n ∈ ns, 0 ≤ n ∧ n < 2 ^ 63) (hlo : -(2 ^ 63) + 10 ≤ t) (hhi : t < 2 ^ 63) :
    (∃ m ∈ ns, (∀ n ∈ ns, n ≤ m) ∧ bucketValue (UpdateMaxAll ns t) t = some m.toNat) ∧
    (∀ ms : List Int, ms.Perm ns →
      bucketValue (UpdateMaxAll ms t) t = bucketValue (UpdateMaxAll ns t) t) ∧
    (∀ (n : Int) (v : Nat), 0 ≤ n → n < 2 ^ 63 →
      bucketValue (UpdateMaxAll ns t) t = some v → n.toNat ≤ v →
      UpdateMax (UpdateMaxAll ns t) n t t = UpdateMaxAll ns t) := by
  have hval : ∀ l : List Int, l ≠ [] →
      bucketValue (UpdateMaxAll l t) t = some ((l.map toUint64).foldl Nat.max 0) := by
    intro l hl
    unfold UpdateMaxAll
    rw [bucketValue_foldl_UpdateMax t hlo hhi l NewNumber hl]
    rfl
  have hcast : ∀ n : Int, 0 ≤ n → n < 2 ^ 63 → toUint64 n = n.toNat := by
    intro n h0 h1
    have := toUint64_of_nonneg n h0 h1
    omega
  refine ⟨?_, ?_, ?_⟩
  · have hmapne : ns.map toUint64 ≠ [] := by simpa using hne
    obtain ⟨m, hm, hmeq⟩ := List.mem_map.mp (foldl_max_zero_mem _ hmapne)
    refine ⟨m, hm, fun n hn => ?_, ?_⟩
    · have hle := mem_le_foldl_max (ns.map toUint64) 0 _ (List.mem_map.mpr ⟨n, hn, rfl⟩)
      rw [← hmeq, hcast n (hns n hn).1 (hns n hn).2, hcast m (hns m hm).1 (hns m hm).2] at hle
      have := (hns n hn).1
      have := (hns m hm).1
      omega
    · rw [hval ns hne, ← hmeq, hcast m (hns m hm).1 (hns m hm).2]
  · intro ms hperm
    have hmsne : ms ≠ [] := by
      intro h
      rw [h] at hperm
      exact hne (List.Perm.eq_nil hperm.symm)
    rw [hval ms hmsne, hval ns hne]
    have hp : (ms.map toUint64).Perm (ns.map toUint64) := hperm.map _
    have h1 := foldl_max_zero_mem (ms.map toUint64) (by simpa using hmsne)
    have h2 := foldl_max_zero_mem (ns.map toUint64) (by simpa using hne)
    have h3 := mem_le_foldl_max (ns.map toUint64) 0 _ (hp.subset h1)
    have h4 := mem_le_foldl_max (ms.map toUint64) 0 _ (hp.symm.subset h2)
    exact congrArg some (Nat.le_antisymm h3 h4)
  · intro n v hn0 hn1 hv hle
    unfold UpdateMaxAll at hv ⊢
    refine UpdateMax_eq_self _ n t v (foldl_UpdateMax_recent t ns NewNumber hne) hv ?_
    rw [hcast n hn0 hn1]
    exact hle

/-- C6, instance: the samples 3, 7, 1, 9, 5 submitted in one second yield a
bucket value of 9, and so does the reversed order of submission. -/
theorem UpdateMaxAll_eq_maximum_witness :
    bucketValue (UpdateMaxAll [3, 7, 1, 9, 5] 100) 100 = some 9 ∧
    bucketValue (UpdateMaxAll [5, 9, 1, 7, 3] 100) 100 = some 9 := by
  have hrange : ∀ n ∈ ([3, 7, 1, 9, 5] : List Int), 0 ≤ n ∧ n < 2 ^ 63 := by
    intro n hn
    simp only [List.mem_cons, List.mem_singleton, List.not_mem_nil, or_false] at hn
    omega
  have h := UpdateMaxAll_eq_maximum [3, 7, 1, 9, 5] 100 (by simp) hrange (by decide) (by decide)
  obtain ⟨m, hm, hmax, hv⟩ := h.1
  have h9 : (9 : Int) ≤ m := hmax 9 (by simp)
  have hm9 : m = 9 := by
    simp only [List.mem_cons, List.mem_singleton, List.not_mem_nil, or_false] at hm
    omega
  subst hm9
  have hfirst : bucketValue (UpdateMaxAll [3, 7, 1, 9, 5] 100) 100 = some 9 := hv
  refine ⟨hfirst, ?_⟩
  rw [h.2.1 [5, 9, 1, 7, 3] (by decide)]
  exact hfirst

/-- C9: for every start second `T` and every `M >= 1`, when `Increment()` is
called once at each of the clock seconds `T, T+1, ..., T+M-1` on a fresh
counter, the number of buckets in the map after each of the calls (after the
`k`-th call, `1 <= k <= M`) is at most 11. -/
theorem bucket_count_le_eleven (T : Int) (M : Nat) (hM : 1 ≤ M) (hlo : -(2 ^ 63) + 10 ≤ T)
    (hhi : T + M - 1 < 2 ^ 63) (k : Nat) (hk1 : 1 ≤ k) (hkM : k ≤ M) :
    (IncrementEachSecond T k).Buckets.length ≤ 11 := by
  obtain ⟨j, rfl⟩ : ∃ j, k = j + 1 := ⟨k - 1, by omega⟩
  have hprev := keys_IncrementEachSecond T j
  have h := keys_Increment (IncrementEachSecond T j) (T + j) (T + j) hprev.1
  have hw : wrapInt64 (T + j - 10) = T + j - 10 :=
    wrapInt64_of_inRange _ (by omega) (by omega)
  have hin : ∀ x ∈ (IncrementEachSecond T (j + 1)).Buckets.map Prod.fst,
      T + j - 10 < x ∧ x ≤ T + j := by
    intro x hx
    have hx2 := h.2 x hx
    rw [hw] at hx2
    refine ⟨hx2.2, ?_⟩
    rcases hx2.1 with hold | hnew
    · have := hprev.2 x hold
      omega
    · omega
  have hlen := length_le_of_nodup_Ioc _ (T + j - 10) (T + j) h.1 hin
  rw [List.length_map] at hlen
  have : (T + ↑j - (T + ↑j - 10)).toNat = 10 := by
    have : T + ↑j - (T + ↑j - 10) = 10 := by omega
    rw [this]; rfl
  show (Increment (IncrementEachSecond T j) (T + j) (T + j)).Buckets.length ≤ 11
  have hlen2 : (Increment (IncrementEachSecond T j) (T + j) (T + j)).Buckets.length
      ≤ (T + ↑j - (T + ↑j - 10)).toNat := hlen
  omega

/-- C9, instance: thirty seconds of one `Increment()` per second starting at
second 100; at most 11 buckets after the thirtieth call. -/
theorem bucket_count_le_eleven_witness :
    (IncrementEachSecond 100 30).Buckets.length ≤ 11 :=
  bucket_count_le_eleven 100 30 (by decide) (by decide) (by decide) 30 (by decide) (by decide)

/-- C10 (the code under concurrency): two goroutines call `Increment()` on a
fresh counter within clock second 100.  In the interleaving where both look
the bucket up and miss before either creates it, goroutine 0 then creates its
bucket and increments it, and goroutine 1 then stores a new zero-valued bucket
over it and increments that one, both calls have returned, the map holds one
bucket, and `Sum(now)` is 1, not 2: one increment is lost. -/
theorem concurrent_Increment_loses_update :
    (runSchedule NewNumber 2
        [(0, 100), (1, 100), (0, 100), (0, 100), (1, 100), (1, 100)]).2
      = [IncrementPc.done, IncrementPc.done] ∧
    (runSchedule NewNumber 2
        [(0, 100), (1, 100), (0, 100), (0, 100), (1, 100), (1, 100)]).1.Buckets.length = 1 ∧
    Sum (runSchedule NewNumber 2
        [(0, 100), (1, 100), (0, 100), (0, 100), (1, 100), (1, 100)]).1 100 = 1 := by
  decide

/-! ## Claims about eviction -/

theorem mapGet_filter_of_neg (q : Int → Bool) (m : List (Int × Addr)) (k : Int)
    (hk : q k = false) : mapGet (m.filter (fun e => q e.1)) k = none := by
  induction m with
  | nil => rfl
  | cons e m ih =>
    obtain ⟨k', p'⟩ := e
    by_cases h : k' = k
    · subst h
      simp [List.filter_cons, hk, ih]
    · by_cases hq : q k' = true
      · simp [List.filter_cons, hq, mapGet, h, ih]
      · simp [List.filter_cons, hq, ih]

theorem mapGet_removeOldBuckets_old (r : Number) (now k : Int)
    (hk : k ≤ wrapInt64 (now - 10)) : mapGet (removeOldBuckets r now).Buckets k = none := by
  rw [removeOldBuckets_Buckets]
  exact mapGet_filter_of_neg (fun x => decide (wrapInt64 (now - 10) < x)) r.Buckets k
    (decide_eq_false (not_lt.mpr hk))

/-- C11 (as stated, refuted): a bucket written at second 90 is exactly 10
seconds old at second 100 and `Sum` at second 100 counts it, yet the eviction
run at second 100, alone or at the end of `Increment()`, removes it. -/
theorem eviction_removes_ten_second_old_bucket :
    bucketValue (Increment NewNumber 90 90) 90 = some 1 ∧
    Sum (Increment NewNumber 90 90) 100 = 1 ∧
    (removeOldBuckets (Increment NewNumber 90 90) 100).Buckets = [] ∧
    bucketValue (Increment (Increment NewNumber 90 90) 100 100) 90 = none := by
  decide

/-- C11 (amended): for every state and every clock second `now`, the eviction
run by a mutating call at `now` removes exactly the buckets whose timestamp is
`now - 10` or older (`ts <= now - 10`) and keeps, with their values, exactly
the buckets with `ts > now - 10`. -/
theorem removeOldBuckets_removes_exactly (r : Number) (now : Int)
    (hlo : -(2 ^ 63) + 10 ≤ now) (hhi : now < 2 ^ 63) :
    (removeOldBuckets r now).Buckets
        = r.Buckets.filter (fun e => decide (now - 10 < e.1)) ∧
    (removeOldBuckets r now).Value = r.Value ∧
    (∀ e, e ∈ (removeOldBuckets r now).Buckets ↔ (e ∈ r.Buckets ∧ now - 10 < e.1)) ∧
    (∀ e ∈ r.Buckets, e.1 ≤ now - 10 → e ∉ (removeOldBuckets r now).Buckets) := by
  have hw : wrapInt64 (now - 10) = now - 10 := wrapInt64_of_inRange _ (by omega) (by omega)
  have hB := removeOldBuckets_Buckets r now
  rw [hw] at hB
  refine ⟨hB, rfl, fun e => ?_, fun e _ hold hmem => ?_⟩
  · rw [hB, List.mem_filter, decide_eq_true_iff]
  · rw [hB, List.mem_filter, decide_eq_true_iff] at hmem
    omega

/-- C11 (amended), instance: buckets for the seconds 90 and 91; the eviction
at second 100 removes the first and keeps the second. -/
theorem removeOldBuckets_removes_exactly_witness :
    (Increment (Increment NewNumber 90 90) 91 91).Buckets = [(90, 0), (91, 1)] ∧
    (removeOldBuckets (Increment (Increment NewNumber 90 90) 91 91) 100).Buckets
      = [(91, 1)] := by
  refine ⟨by decide, ?_⟩
  rw [(removeOldBuckets_removes_exactly (Increment (Increment NewNumber 90 90) 91 91) 100
    (by decide) (by decide)).1]
  decide

/-- C12 (as stated, refuted): when `getCurrentBucket` reads second 100 and
`removeOldBuckets` reads second 110, `Increment()` and `UpdateMax(7)` on a
fresh counter return with an empty map: the bucket the call wrote is gone. -/
theorem eviction_removes_written_bucket :
    (Increment NewNumber 100 110).Buckets = [] ∧
    (UpdateMax NewNumber 7 100 110).Buckets = [] := by
  decide

/-- C12 (amended): for every state and every pair of clock readings `t1` (in
`getCurrentBucket`) and `t2` (in `removeOldBuckets`) of one `Increment()` or
`UpdateMax(n)` call, the bucket selected and written by the call is still in
the map under `t1` when the call returns if and only if `t2 < t1 + 10`; this
is so in particular when both readings are the same second. -/
theorem written_bucket_kept_iff (r : Number) (n t1 t2 : Int)
    (hlo : -(2 ^ 63) + 10 ≤ t2) (hhi : t2 < 2 ^ 63) :
    mapGet (Increment r t1 t2).Buckets t1
        = (if t2 < t1 + 10 then some (getCurrentBucket r t1).2 else none) ∧
    mapGet (UpdateMax r n t1 t2).Buckets t1
        = (if t2 < t1 + 10 then some (getCurrentBucket r t1).2 else none) := by
  have hw : wrapInt64 (t2 - 10) = t2 - 10 := wrapInt64_of_inRange _ (by omega) (by omega)
  have hU : ∀ q : Number, mapGet (updateMaxLocked q (getCurrentBucket r t1).2 n t2).Buckets t1
      = mapGet (removeOldBuckets q t2).Buckets t1 := by
    intro q
    unfold updateMaxLocked
    by_cases hgt : toUint64 n > q.Value (getCurrentBucket r t1).2
    · rw [if_pos hgt]; rfl
    · rw [if_neg hgt]
  have hI : ∀ q : Number, mapGet (incrementLocked q (getCurrentBucket r t1).2 t2).Buckets t1
      = mapGet (removeOldBuckets q t2).Buckets t1 := fun q => rfl
  unfold Increment UpdateMax
  simp only
  rw [hI, hU]
  by_cases h : t2 < t1 + 10
  · have hk : wrapInt64 (t2 - 10) < t1 := by rw [hw]; omega
    rw [if_pos h, mapGet_removeOldBuckets _ _ _ hk, mapGet_getCurrentBucket]
    exact ⟨rfl, rfl⟩
  · have hk : t1 ≤ wrapInt64 (t2 - 10) := by rw [hw]; omega
    rw [if_neg h, mapGet_removeOldBuckets_old _ _ _ hk]
    exact ⟨rfl, rfl⟩

/-- C12 (amended), instances: readings 100 and 109 keep the bucket of second
100, readings 100 and 110 lose it. -/
theorem written_bucket_kept_iff_witness :
    mapGet (Increment NewNumber 100 109).Buckets 100 = some 0 ∧
    mapGet (UpdateMax NewNumber 7 100 110).Buckets 100 = none :=
  ⟨(written_bucket_kept_iff NewNumber 7 100 109 (by decide) (by decide)).1,
   (written_bucket_kept_iff NewNumber 7 100 110 (by decide) (by decide)).2⟩

/-- C13 (the code at a present entry): the counter holds a bucket for second
100, at address 0 and of value 1.  The creation step of `getCurrentBucket`
for second 100, as run by a goroutine whose lookup had missed before that
bucket was inserted, does not re-check: it allocates a bucket at address 1,
stores it under 100 in place of the existing entry and returns it, so that
the bucket of second 100 now has value 0. -/
theorem createBucket_overwrites_present_entry :
    lookupBucket (Increment NewNumber 100 100) 100 = some 0 ∧
    bucketValue (Increment NewNumber 100 100) 100 = some 1 ∧
    (IncrementStep 100 (Increment NewNumber 100 100) (IncrementPc.create 100)).2
      = IncrementPc.locked 1 ∧
    lookupBucket
      (IncrementStep 100 (Increment NewNumber 100 100) (IncrementPc.create 100)).1 100
      = some 1 ∧
    bucketValue
      (IncrementStep 100 (Increment NewNumber 100 100) (IncrementPc.create 100)).1 100
      = some 0 := by
  decide

/-! ## Separation of the bucket objects -/

theorem mapGet_mem (m : List (Int × Addr)) (k : Int) (p : Addr) (h : mapGet m k = some p) :
    (k, p) ∈ m := by
  induction m with
  | nil => cases h
  | cons e m ih =>
    obtain ⟨k', p'⟩ := e
    by_cases hk : k' = k
    · subst hk
      simp only [mapGet, if_true, Option.some.injEq] at h
      subst h
      exact List.mem_cons_self _ _
    · simp only [mapGet, hk, if_false] at h
      exact List.mem_cons_of_mem _ (ih h)

theorem mapGet_mapSet_ne (m : List (Int × Addr)) (k s : Int) (p : Addr) (hs : s ≠ k) :
    mapGet (mapSet m k p) s = mapGet m s := by
  induction m with
  | nil =>
    have : ¬ k = s := fun h => hs h.symm
    simp [mapSet, mapGet, this]
  | cons e m ih =>
    obtain ⟨k', p'⟩ := e
    by_cases hk : k' = k
    · subst hk
      have : ¬ k' = s := fun h => hs h.symm
      simp [mapSet, mapGet, this]
    · by_cases hks : k' = s
      · subst hks
        simp [mapSet, mapGet, hk]
      · simp [mapSet, mapGet, hk, hks, ih]

theorem mem_mapSet (m : List (Int × Addr)) (k : Int) (p : Addr) (e : Int × Addr)
    (he : e ∈ mapSet m k p) : e ∈ m ∨ e = (k, p) := by
  induction m with
  | nil =>
    simp only [mapSet, List.mem_singleton] at he
    exact Or.inr he
  | cons e' m ih =>
    obtain ⟨k', p'⟩ := e'
    by_cases hk : k' = k
    · simp only [mapSet, hk, if_true, List.mem_cons] at he
      rcases he with h | h
      · exact Or.inr h
      · exact Or.inl (List.mem_cons_of_mem _ h)
    · simp only [mapSet, hk, if_false, List.mem_cons] at he
      rcases he with h | h
      · exact Or.inl (h ▸ List.mem_cons_self _ _)
      · rcases ih h with h' | h'
        · exact Or.inl (List.mem_cons_of_mem _ h')
        · exact Or.inr h'

theorem addrs_mapSet_nodup (m : List (Int × Addr)) (k : Int) (p : Addr)
    (hnd : (m.map Prod.snd).Nodup) (hp : p ∉ m.map Prod.snd) :
    ((mapSet m k p).map Prod.snd).Nodup := by
  induction m with
  | nil => simp [mapSet]
  | cons e m ih =>
    obtain ⟨k', p'⟩ := e
    rw [List.map_cons, List.nodup_cons] at hnd
    rw [List.map_cons, List.mem_cons, not_or] at hp
    by_cases hk : k' = k
    · simp only [mapSet, hk, if_true, List.map_cons, List.nodup_cons]
      exact ⟨hp.2, hnd.2⟩
    · simp only [mapSet, hk, if_false, List.map_cons, List.nodup_cons]
      refine ⟨fun hmem => ?_, ih hnd.2 hp.2⟩
      obtain ⟨e, he, hep⟩ := List.mem_map.mp hmem
      rcases mem_mapSet m k p e he with h | h
      · exact hnd.1 (List.mem_map.mpr ⟨e, h, hep⟩)
      · rw [h] at hep
        exact hp.1 hep

theorem separated_NewNumber : separated NewNumber := by
  unfold separated NewNumber
  simp

theorem separated_getCurrentBucket (r : Number) (now : Int) (h : separated r) :
    separated (getCurrentBucket r now).1 := by
  unfold getCurrentBucket lookupBucket
  cases hget : mapGet r.Buckets now with
  | some b => exact h
  | none =>
    unfold separated createBucket
    simp only
    constructor
    · refine addrs_mapSet_nodup _ _ _ h.1 (fun hmem => ?_)
      obtain ⟨e, he, hep⟩ := List.mem_map.mp hmem
      have hlt := h.2 e he
      rw [hep] at hlt
      exact Nat.lt_irrefl _ hlt
    · intro e he
      rcases mem_mapSet _ _ _ e he with h' | h'
      · exact Nat.lt_succ_of_lt (h.2 e h')
      · rw [h']
        exact Nat.lt_succ_self _

theorem separated_of_buckets (q r : Number) (hsub : q.Buckets.Sublist r.Buckets)
    (hnext : q.next = r.next) (h : separated r) : separated q := by
  unfold separated at h ⊢
  refine ⟨List.Nodup.sublist (List.Sublist.map _ hsub) h.1, fun e he => ?_⟩
  rw [hnext]
  exact h.2 e (hsub.subset he)

theorem removeOldBuckets_sublist (r : Number) (now : Int) :
    (removeOldBuckets r now).Buckets.Sublist r.Buckets := by
  rw [removeOldBuckets_Buckets]
  exact List.filter_sublist _

theorem Increment_Buckets (r : Number) (t1 t2 : Int) :
    (Increment r t1 t2).Buckets = (removeOldBuckets (getCurrentBucket r t1).1 t2).Buckets := rfl

theorem UpdateMax_Buckets (r : Number) (n t1 t2 : Int) :
    (UpdateMax r n t1 t2).Buckets = (removeOldBuckets (getCurrentBucket r t1).1 t2).Buckets := by
  unfold UpdateMax updateMaxLocked
  simp only
  by_cases hgt : toUint64 n > (getCurrentBucket r t1).1.Value (getCurrentBucket r t1).2
  · rw [if_pos hgt]; rfl
  · rw [if_neg hgt]

theorem Increment_next (r : Number) (t1 t2 : Int) :
    (Increment r t1 t2).next = (getCurrentBucket r t1).1.next := rfl

theorem UpdateMax_next (r : Number) (n t1 t2 : Int) :
    (UpdateMax r n t1 t2).next = (getCurrentBucket r t1).1.next := by
  unfold UpdateMax updateMaxLocked
  simp only
  by_cases hgt : toUint64 n > (getCurrentBucket r t1).1.Value (getCurrentBucket r t1).2
  · rw [if_pos hgt]; rfl
  · rw [if_neg hgt]; rfl

/-- `Increment()` preserves the separation of the bucket objects. -/
theorem separated_Increment (r : Number) (t1 t2 : Int) (h : separated r) :
    separated (Increment r t1 t2) :=
  separated_of_buckets _ (getCurrentBucket r t1).1
    (by rw [Increment_Buckets]; exact removeOldBuckets_sublist _ _)
    (Increment_next r t1 t2) (separated_getCurrentBucket r t1 h)

/-- `UpdateMax(n)` preserves the separation of the bucket objects. -/
theorem separated_UpdateMax (r : Number) (n t1 t2 : Int) (h : separated r) :
    separated (UpdateMax r n t1 t2) :=
  separated_of_buckets _ (getCurrentBucket r t1).1
    (by rw [UpdateMax_Buckets]; exact removeOldBuckets_sublist _ _)
    (UpdateMax_next r n t1 t2) (separated_getCurrentBucket r t1 h)

/-! ## Buckets other than the current one -/

theorem mapGet_getCurrentBucket_ne (r : Number) (t s : Int) (hs : s ≠ t) :
    mapGet (getCurrentBucket r t).1.Buckets s = mapGet r.Buckets s := by
  unfold getCurrentBucket lookupBucket
  cases hget : mapGet r.Buckets t with
  | some b => rfl
  | none => exact mapGet_mapSet_ne _ _ _ _ hs

theorem getCurrentBucket_Value_of_lt (r : Number) (t : Int) (p : Addr) (hp : p < r.next) :
    (getCurrentBucket r t).1.Value p = r.Value p := by
  unfold getCurrentBucket lookupBucket
  cases hget : mapGet r.Buckets t with
  | some b => rfl
  | none =>
    have hne : p ≠ r.next := Nat.ne_of_lt hp
    simp [createBucket, Function.update_noteq hne]

theorem getCurrentBucket_addr_ne (r : Number) (t s : Int) (p : Addr) (h : separated r)
    (hp : mapGet r.Buckets s = some p) (hs : s ≠ t) : p ≠ (getCurrentBucket r t).2 := by
  have hmem := mapGet_mem _ _ _ hp
  unfold getCurrentBucket lookupBucket
  cases hget : mapGet r.Buckets t with
  | some b =>
    intro hpb
    have hmem2 := mapGet_mem _ _ _ hget
    have heq : (s, p) = (t, b) := List.inj_on_of_nodup_map h.1 hmem hmem2 hpb
    exact hs (congrArg Prod.fst heq)
  | none =>
    intro hpn
    have hlt := h.2 _ hmem
    simp only [createBucket] at hpn
    rw [hpn] at hlt
    exact Nat.lt_irrefl _ hlt

theorem mapGet_removeOldBuckets_eq (q : Number) (now s : Int) :
    mapGet (removeOldBuckets q now).Buckets s
      = if wrapInt64 (now - 10) < s then mapGet q.Buckets s else none := by
  by_cases hrec : wrapInt64 (now - 10) < s
  · rw [if_pos hrec]; exact mapGet_removeOldBuckets q now s hrec
  · rw [if_neg hrec]; exact mapGet_removeOldBuckets_old q now s (not_lt.mp hrec)

theorem Increment_Value_of_ne (r : Number) (t1 t2 : Int) (p : Addr)
    (hp : p ≠ (getCurrentBucket r t1).2) :
    (Increment r t1 t2).Value p = (getCurrentBucket r t1).1.Value p := by
  show Function.update _ _ _ p = _
  exact Function.update_noteq hp _ _

theorem UpdateMax_Value_of_ne (r : Number) (n t1 t2 : Int) (p : Addr)
    (hp : p ≠ (getCurrentBucket r t1).2) :
    (UpdateMax r n t1 t2).Value p = (getCurrentBucket r t1).1.Value p := by
  unfold UpdateMax updateMaxLocked
  simp only
  by_cases hgt : toUint64 n > (getCurrentBucket r t1).1.Value (getCurrentBucket r t1).2
  · rw [if_pos hgt]
    show Function.update _ _ _ p = _
    exact Function.update_noteq hp _ _
  · rw [if_neg hgt]; rfl

/-- The bucket of a second `s` other than the second `t1` of the call after
`Increment()`: evicted if it is old, and otherwise as it was. -/
theorem bucketValue_Increment_ne (r : Number) (t1 t2 s : Int) (h : separated r)
    (hs : s ≠ t1) :
    bucketValue (Increment r t1 t2) s
      = if wrapInt64 (t2 - 10) < s then bucketValue r s else none := by
  unfold bucketValue
  rw [Increment_Buckets, mapGet_removeOldBuckets_eq, mapGet_getCurrentBucket_ne r t1 s hs]
  by_cases hrec : wrapInt64 (t2 - 10) < s
  · rw [if_pos hrec, if_pos hrec]
    cases hget : mapGet r.Buckets s with
    | none => rfl
    | some p =>
      simp only [Option.map_some', Option.some.injEq]
      rw [Increment_Value_of_ne r t1 t2 p (getCurrentBucket_addr_ne r t1 s p h hget hs),
        getCurrentBucket_Value_of_lt r t1 p (h.2 _ (mapGet_mem _ _ _ hget))]
  · rw [if_neg hrec, if_neg hrec]
    rfl

/-- The bucket of a second `s` other than the second `t1` of the call after
`UpdateMax(n)`: evicted if it is old, and otherwise as it was. -/
theorem bucketValue_UpdateMax_ne (r : Number) (n t1 t2 s : Int) (h : separated r)
    (hs : s ≠ t1) :
    bucketValue (UpdateMax r n t1 t2) s
      = if wrapInt64 (t2 - 10) < s then bucketValue r s else none := by
  unfold bucketValue
  rw [UpdateMax_Buckets, mapGet_removeOldBuckets_eq, mapGet_getCurrentBucket_ne r t1 s hs]
  by_cases hrec : wrapInt64 (t2 - 10) < s
  · rw [if_pos hrec, if_pos hrec]
    cases hget : mapGet r.Buckets s with
    | none => rfl
    | some p =>
      simp only [Option.map_some', Option.some.injEq]
      rw [UpdateMax_Value_of_ne r n t1 t2 p (getCurrentBucket_addr_ne r t1 s p h hget hs),
        getCurrentBucket_Value_of_lt r t1 p (h.2 _ (mapGet_mem _ _ _ hget))]
  · rw [if_neg hrec, if_neg hrec]
    rfl

/-! ## Sequences of mutating calls -/

theorem applyCall_Buckets (r : Number) (c : Call × Int) :
    (applyCall r c).Buckets = (removeOldBuckets (getCurrentBucket r c.2).1 c.2).Buckets := by
  obtain ⟨call, t⟩ := c
  cases call with
  | increment => exact Increment_Buckets r t t
  | updateMax n => exact UpdateMax_Buckets r n t t

theorem mem_keys_applyCall (r : Number) (c : Call × Int) (x : Int)
    (hx : x ∈ (applyCall r c).Buckets.map Prod.fst) :
    (x ∈ r.Buckets.map Prod.fst ∨ x = c.2) ∧ wrapInt64 (c.2 - 10) < x := by
  rw [applyCall_Buckets] at hx
  exact ⟨mem_keys_getCurrentBucket r c.2 x ((keys_removeOldBuckets_sublist _ c.2).subset hx),
    mem_keys_removeOldBuckets _ c.2 x hx⟩

theorem keys_applyCall_nodup (r : Number) (c : Call × Int)
    (hnd : (r.Buckets.map Prod.fst).Nodup) : ((applyCall r c).Buckets.map Prod.fst).Nodup := by
  rw [applyCall_Buckets]
  exact List.Nodup.sublist (keys_removeOldBuckets_sublist _ c.2)
    (keys_getCurrentBucket_nodup r c.2 hnd)

theorem separated_applyCall (r : Number) (c : Call × Int) (h : separated r) :
    separated (applyCall r c) := by
  obtain ⟨call, t⟩ := c
  cases call with
  | increment => exact separated_Increment r t t h
  | updateMax n => exact separated_UpdateMax r n t t h

theorem mem_keys_foldl_applyCall (calls : List (Call × Int)) (r0 : Number) (x : Int)
    (hx : x ∈ (calls.foldl applyCall r0).Buckets.map Prod.fst) :
    x ∈ r0.Buckets.map Prod.fst ∨ x ∈ calls.map Prod.snd := by
  induction calls generalizing r0 with
  | nil => exact Or.inl hx
  | cons c calls ih =>
    rw [List.foldl_cons] at hx
    rcases ih _ hx with h | h
    · rcases (mem_keys_applyCall r0 c x h).1 with h' | h'
      · exact Or.inl h'
      · right
        rw [List.map_cons, h']
        exact List.mem_cons_self _ _
    · right
      rw [List.map_cons]
      exact List.mem_cons_of_mem _ h

theorem mem_keys_runCalls (calls : List (Call × Int)) (x : Int)
    (hx : x ∈ (runCalls calls).Buckets.map Prod.fst) : x ∈ calls.map Prod.snd := by
  rcases mem_keys_foldl_applyCall calls NewNumber x hx with h | h
  · simp [NewNumber] at h
  · exact h

theorem runCalls_append_singleton (pre : List (Call × Int)) (c : Call × Int) :
    runCalls (pre ++ [c]) = applyCall (runCalls pre) c := by
  unfold runCalls
  rw [List.foldl_append]
  rfl

theorem keys_runCalls_nodup (calls : List (Call × Int)) :
    ((runCalls calls).Buckets.map Prod.fst).Nodup := by
  induction calls using List.reverseRecOn with
  | nil => simp [runCalls, NewNumber]
  | append_singleton pre c ih =>
    rw [runCalls_append_singleton]
    exact keys_applyCall_nodup _ c ih

theorem separated_runCalls (calls : List (Call × Int)) : separated (runCalls calls) := by
  induction calls using List.reverseRecOn with
  | nil => exact separated_NewNumber
  | append_singleton pre c ih =>
    rw [runCalls_append_singleton]
    exact separated_applyCall _ c ih

/-- C14: starting from a fresh counter and applying any finite sequence of
`Increment()` and `UpdateMax(n)` calls whose clock seconds are non-decreasing
(each call observing a single second), after each call (the last call of the
sequence `pre ++ [(c, now)]`, for every such sequence) every key `k` of the
map satisfies `now - 10 <= k <= now`. -/
theorem keys_within_retention_window (pre : List (Call × Int)) (c : Call) (now : Int)
    (hsorted : ((pre ++ [(c, now)]).map Prod.snd).Pairwise (fun a b => a ≤ b))
    (hlo : -(2 ^ 63) + 10 ≤ now) (hhi : now < 2 ^ 63) :
    ∀ k ∈ (runCalls (pre ++ [(c, now)])).Buckets.map Prod.fst, now - 10 ≤ k ∧ k ≤ now := by
  intro k hk
  have hw : wrapInt64 (now - 10) = now - 10 := wrapInt64_of_inRange _ (by omega) (by omega)
  have hclock := mem_keys_runCalls _ k hk
  rw [runCalls_append_singleton] at hk
  have hrec := (mem_keys_applyCall _ (c, now) k hk).2
  simp only at hrec
  rw [hw] at hrec
  refine ⟨by omega, ?_⟩
  rw [List.map_append, List.map_cons, List.map_nil] at hsorted hclock
  rcases List.mem_append.mp hclock with h | h
  · exact (List.pairwise_append.mp hsorted).2.2 k h now (List.mem_singleton_self _)
  · rw [List.mem_singleton] at h
    omega

/-- C14, instance: `Increment()` at second 90, `UpdateMax(5)` at second 95,
`Increment()` at second 101; the keys left are 95 and 101. -/
theorem keys_within_retention_window_witness :
    (runCalls [(Call.increment, 90), (Call.updateMax 5, 95), (Call.increment, 101)]).Buckets.map
        Prod.fst = [95, 101] ∧
    ∀ k ∈ (runCalls ([(Call.increment, 90), (Call.updateMax 5, 95)]
        ++ [(Call.increment, 101)])).Buckets.map Prod.fst, (101 : Int) - 10 ≤ k ∧ k ≤ 101 :=
  ⟨by decide,
   keys_within_retention_window [(Call.increment, 90), (Call.updateMax 5, 95)] Call.increment
     101 (by decide) (by decide) (by decide)⟩

/-- C15: for every state in which the entries of the map point to distinct
bucket objects, every `Increment()` or `UpdateMax(n)` call at clock second `t`
and every second `s != t`: a bucket that is in the map under `s` after the
call was in the map under `s` before the call and has exactly the value it had
then. -/
theorem other_buckets_unchanged (r : Number) (n t s : Int) (hsep : separated r)
    (hst : s ≠ t) :
    (∀ v, bucketValue (Increment r t t) s = some v → bucketValue r s = some v) ∧
    (∀ v, bucketValue (UpdateMax r n t t) s = some v → bucketValue r s = some v) := by
  constructor
  · intro v hv
    rw [bucketValue_Increment_ne r t t s hsep hst] at hv
    by_cases hrec : wrapInt64 (t - 10) < s
    · rw [if_pos hrec] at hv; exact hv
    · rw [if_neg hrec] at hv; cases hv
  · intro v hv
    rw [bucketValue_UpdateMax_ne r n t t s hsep hst] at hv
    by_cases hrec : wrapInt64 (t - 10) < s
    · rw [if_pos hrec] at hv; exact hv
    · rw [if_neg hrec] at hv; cases hv

/-- C15, instance: the bucket of second 100 holds 1; after `Increment()` and
after `UpdateMax(7)` at second 101 it is still in the map and holds 1. -/
theorem other_buckets_unchanged_witness :
    separated (Increment NewNumber 100 100) ∧
    bucketValue (Increment (Increment NewNumber 100 100) 101 101) 100 = some 1 ∧
    bucketValue (UpdateMax (Increment NewNumber 100 100) 7 101 101) 100 = some 1 ∧
    bucketValue (Increment NewNumber 100 100) 100 = some 1 :=
  ⟨by decide, by decide, by decide,
   (other_buckets_unchanged (Increment NewNumber 100 100) 7 101 100 (by decide)
     (by decide)).1 1 (by decide)⟩

/-! ## Growth of a bucket value -/

/-- C16 (as stated, refuted): a bucket holding `2^64 - 1` (the state written
down directly, and the state reached by `UpdateMax(-1)` on a fresh counter)
holds 0 after `Increment()`: the value has decreased. -/
theorem Increment_wraps_at_max_uint64 :
    bucketValue { Buckets := [(100, 0)], Value := fun _ => 18446744073709551615, next := 1 } 100
      = some 18446744073709551615 ∧
    bucketValue (Increment
      { Buckets := [(100, 0)], Value := fun _ => 18446744073709551615, next := 1 } 100 100) 100
      = some 0 ∧
    bucketValue (UpdateMax NewNumber (-1) 100 100) 100 = some 18446744073709551615 ∧
    bucketValue (Increment (UpdateMax NewNumber (-1) 100 100) 100 100) 100 = some 0 := by
  decide

/-- C16 (amended): for every bucket value `v` below `2^64 - 1`, `Increment()`
applied to that bucket leaves a value `v + 1 >= v`; for every bucket value `v`
and every sample `n`, non-negative in particular, `UpdateMax(n)` applied to
that bucket leaves a value `>= v`; and at `v = 2^64 - 1` the increment wraps
the value to 0. -/
theorem bucket_value_nondecreasing (r : Number) (n t : Int) (v : Nat)
    (hv : bucketValue r t = some v) (hlo : -(2 ^ 63) + 10 ≤ t) (hhi : t < 2 ^ 63) :
    (v < 2 ^ 64 - 1 →
      ∃ w, bucketValue (Increment r t t) t = some w ∧ w = v + 1 ∧ v ≤ w) ∧
    (v = 2 ^ 64 - 1 → bucketValue (Increment r t t) t = some 0) ∧
    (∃ w, bucketValue (UpdateMax r n t t) t = some w ∧ v ≤ w) := by
  have hI := bucketValue_Increment r t hlo hhi
  have hU := bucketValue_UpdateMax r n t hlo hhi
  rw [hv] at hI hU
  simp only [Option.getD_some] at hI hU
  refine ⟨fun hlt => ⟨v + 1, ?_, rfl, Nat.le_succ v⟩, fun hmax => ?_,
    ⟨_, hU, Nat.le_max_left _ _⟩⟩
  · rw [hI, Nat.mod_eq_of_lt (by omega)]
  · rw [hI, hmax]
    rfl

/-- C16 (amended), instances: on a bucket holding 7, `Increment()` leaves 8
and `UpdateMax(3)` leaves a value that is at least 7. -/
theorem bucket_value_nondecreasing_witness :
    bucketValue (UpdateMax NewNumber 7 100 100) 100 = some 7 ∧
    (∃ w, bucketValue (Increment (UpdateMax NewNumber 7 100 100) 100 100) 100 = some w ∧
      w = 7 + 1 ∧ 7 ≤ w) ∧
    (∃ w, bucketValue (UpdateMax (UpdateMax NewNumber 7 100 100) 3 100 100) 100 = some w ∧
      7 ≤ w) :=
  ⟨by decide,
   (bucket_value_nondecreasing (UpdateMax NewNumber 7 100 100) 3 100 7 (by decide) (by decide)
     (by decide)).1 (by decide),
   (bucket_value_nondecreasing (UpdateMax NewNumber 7 100 100) 3 100 7 (by decide) (by decide)
     (by decide)).2.2⟩

/-! ## `Max` against `Sum` -/

theorem mem_le_sum (l : List Nat) (v : Nat) (hv : v ∈ l) : v ≤ l.sum := by
  induction l with
  | nil => cases hv
  | cons w l ih =>
    rw [List.sum_cons]
    rcases List.mem_cons.mp hv with h | h
    · subst h; exact Nat.le_add_right _ _
    · exact Nat.le_trans (ih h) (Nat.le_add_left _ _)

theorem foldl_max_zero_le_sum (l : List Nat) : l.foldl Nat.max 0 ≤ l.sum := by
  rcases foldl_max_mem l 0 with h | h
  · rw [h]; exact Nat.zero_le _
  · exact mem_le_sum l _ h

theorem sum_filter_ne_zero (l : List Nat) :
    (l.filter (fun v => decide (v ≠ 0))).sum = l.sum := by
  induction l with
  | nil => rfl
  | cons w l ih =>
    by_cases hw : w = 0
    · subst hw
      simp only [List.filter_cons, ne_eq, not_true_eq_false, decide_False, Bool.false_eq_true,
        if_false, List.sum_cons, Nat.zero_add]
      exact ih
    · simp only [List.filter_cons, ne_eq, hw, not_false_eq_true, decide_True, if_true,
        List.sum_cons]
      rw [ih]

theorem foldl_max_filter_ne_zero (l : List Nat) (acc : Nat) :
    (l.filter (fun v => decide (v ≠ 0))).foldl Nat.max acc = l.foldl Nat.max acc := by
  induction l generalizing acc with
  | nil => rfl
  | cons w l ih =>
    by_cases hw : w = 0
    · subst hw
      have hmax : Nat.max acc 0 = acc := Nat.max_eq_left (Nat.zero_le _)
      simp only [List.filter_cons, ne_eq, not_true_eq_false, decide_False, Bool.false_eq_true,
        if_false, List.foldl_cons, hmax]
      exact ih acc
    · simp only [List.filter_cons, ne_eq, hw, not_false_eq_true, decide_True, if_true,
        List.foldl_cons]
      exact ih _

/-- C18: for every counter state and every instant `now` such that the exact
total of the values of the buckets passing `timestamp >= now.Unix()-10` is
below `2^64`, `Max(now) <= Sum(now)`; and `Max(now) = Sum(now)` whenever at
most one of these buckets has a non-zero value. -/
theorem Max_le_Sum (r : Number) (now : Int)
    (htot : (valuesOf r (window r now)).sum < 2 ^ 64) :
    Max r now ≤ Sum r now ∧
    (((valuesOf r (window r now)).filter (fun v => decide (v ≠ 0))).length ≤ 1 →
      Max r now = Sum r now) := by
  rw [Max_eq_window_max, Sum_eq_window_sum, Nat.mod_eq_of_lt htot]
  refine ⟨foldl_max_zero_le_sum _, fun hone => ?_⟩
  rw [← sum_filter_ne_zero, ← foldl_max_filter_ne_zero]
  match hl : (valuesOf r (window r now)).filter (fun v => decide (v ≠ 0)) with
  | [] => rfl
  | [v] =>
    show Nat.max 0 v = v + 0
    rw [Nat.add_zero]
    exact Nat.max_eq_right (Nat.zero_le v)
  | v :: w :: l =>
    rw [hl] at hone
    simp at hone

/-- C18, instances: buckets 1 (second 100) and 7 (second 101) give
`Max = 7 <= Sum = 8` at second 105; the single bucket 7 gives `Max = Sum`. -/
theorem Max_le_Sum_witness :
    Max (UpdateMax (Increment NewNumber 100 100) 7 101 101) 105
      ≤ Sum (UpdateMax (Increment NewNumber 100 100) 7 101 101) 105 ∧
    Max (UpdateMax NewNumber 7 101 101) 105 = Sum (UpdateMax NewNumber 7 101 101) 105 :=
  ⟨(Max_le_Sum (UpdateMax (Increment NewNumber 100 100) 7 101 101) 105 (by decide)).1,
   (Max_le_Sum (UpdateMax NewNumber 7 101 101) 105 (by decide)).2 (by decide)⟩

/-! ## Counting the increments of the last seconds -/

theorem IncrementAll_append_singleton (pre : List Int) (t : Int) :
    IncrementAll (pre ++ [t]) = Increment (IncrementAll pre) t t := by
  unfold IncrementAll
  rw [List.map_append, List.map_cons, List.map_nil, runCalls_append_singleton]
  rfl

theorem separated_IncrementAll (ts : List Int) : separated (IncrementAll ts) :=
  separated_runCalls _

theorem keys_IncrementAll_nodup (ts : List Int) :
    ((IncrementAll ts).Buckets.map Prod.fst).Nodup :=
  keys_runCalls_nodup _

theorem mapGet_of_mem_nodup (m : List (Int × Addr)) (k : Int) (p : Addr)
    (hnd : (m.map Prod.fst).Nodup) (hmem : (k, p) ∈ m) : mapGet m k = some p := by
  induction m with
  | nil => cases hmem
  | cons e m ih =>
    obtain ⟨k', p'⟩ := e
    rw [List.map_cons, List.nodup_cons] at hnd
    rcases List.mem_cons.mp hmem with h | h
    · have hk : k' = k := (congrArg Prod.fst h).symm
      have hp : p' = p := (congrArg Prod.snd h).symm
      simp [mapGet, hk, hp]
    · have hne : ¬ k' = k := by
        intro hk
        apply hnd.1
        rw [hk]
        exact List.mem_map.mpr ⟨(k, p), h, rfl⟩
      simp only [mapGet, hne, if_false]
      exact ih hnd.2 h

/-- The bucket of every second `k` after increments at non-decreasing clock
seconds `ts`: it holds the number of increments made at `k` if `k` occurs in
`ts` and no call came 10 seconds or more after `k`, and is absent otherwise. -/
theorem bucketValue_IncrementAll (k : Int) (ts : List Int) :
    ts.Pairwise (fun a b => a ≤ b) →
    (∀ t ∈ ts, -(2 ^ 63) + 10 ≤ t ∧ t < 2 ^ 63) →
    ts.length < 2 ^ 64 →
    ((∀ t ∈ ts, t - 10 < k) → k ∈ ts → bucketValue (IncrementAll ts) k = some (ts.count k)) ∧
    ((¬ (∀ t ∈ ts, t - 10 < k) ∨ k ∉ ts) → bucketValue (IncrementAll ts) k = none) := by
  induction ts using List.reverseRecOn with
  | nil =>
    intro _ _ _
    refine ⟨fun _ hk => absurd hk (List.not_mem_nil k), fun _ => rfl⟩
  | append_singleton pre t ih =>
    intro hsorted hrange hlen
    have hsp := List.pairwise_append.mp hsorted
    have hle : ∀ a ∈ pre, a ≤ t := fun a ha => hsp.2.2 a ha t (List.mem_singleton_self t)
    have hlen1 : pre.length + 1 < 2 ^ 64 := by
      rw [List.length_append, List.length_singleton] at hlen
      exact hlen
    have hlenpre : pre.length < 2 ^ 64 := by omega
    obtain ⟨ihA, ihB⟩ := ih hsp.1 (fun a ha => hrange a (List.mem_append_left _ ha)) hlenpre
    have ht := hrange t (List.mem_append_right _ (List.mem_singleton_self t))
    have hw : wrapInt64 (t - 10) = t - 10 := wrapInt64_of_inRange _ (by omega) (by omega)
    rw [IncrementAll_append_singleton]
    by_cases hkt : k = t
    · subst hkt
      have hall : ∀ a ∈ pre ++ [k], a - 10 < k := by
        intro a ha
        rcases List.mem_append.mp ha with h | h
        · have := hle a h
          omega
        · rw [List.mem_singleton] at h
          omega
      have hold : (bucketValue (IncrementAll pre) k).getD 0 = pre.count k := by
        by_cases hmem : k ∈ pre
        · rw [ihA (fun a ha => hall a (List.mem_append_left _ ha)) hmem]
          rfl
        · rw [ihB (Or.inr hmem), List.count_eq_zero_of_not_mem hmem]
          rfl
      have hcount : (pre ++ [k]).count k = pre.count k + 1 := by
        rw [List.count_append, List.count_singleton_self]
      have hbound : pre.count k + 1 < 2 ^ 64 := by
        have := List.count_le_length k pre
        omega
      refine ⟨fun _ _ => ?_, fun hB => ?_⟩
      · rw [bucketValue_Increment _ k ht.1 ht.2, hold, hcount, Nat.mod_eq_of_lt hbound]
      · rcases hB with h | h
        · exact absurd hall h
        · exact absurd (List.mem_append_right _ (List.mem_singleton_self k)) h
    · have hcount : (pre ++ [t]).count k = pre.count k := by
        rw [List.count_append, List.count_eq_zero_of_not_mem (a := k) (l := [t])
          (by rw [List.mem_singleton]; exact hkt), Nat.add_zero]
      rw [bucketValue_Increment_ne _ t t k (separated_IncrementAll pre) hkt, hw]
      refine ⟨fun hall hmem => ?_, fun hB => ?_⟩
      · have hrec : t - 10 < k :=
          hall t (List.mem_append_right _ (List.mem_singleton_self t))
        have hmempre : k ∈ pre := by
          rcases List.mem_append.mp hmem with h | h
          · exact h
          · rw [List.mem_singleton] at h
            exact absurd h hkt
        rw [if_pos hrec, hcount]
        exact ihA (fun a ha => hall a (List.mem_append_left _ ha)) hmempre
      · by_cases hrec : t - 10 < k
        · rw [if_pos hrec]
          apply ihB
          rcases hB with h | h
          · left
            intro hallpre
            apply h
            intro a ha
            rcases List.mem_append.mp ha with h' | h'
            · exact hallpre a h'
            · rw [List.mem_singleton] at h'
              rw [h']
              exact hrec
          · right
            exact fun hp => h (List.mem_append_left _ hp)
        · rw [if_neg hrec]

/-- C17: for every non-empty, non-decreasing sequence of clock seconds
`t1 <= ... <= tn` (`n < 2^64`) at which `Increment()` is called on a fresh
counter, `Sum` at second `tn` is the number of indices `i` with
`ti > tn - 10`; the buckets of the seconds `ti <= tn - 10` are no longer in
the map. -/
theorem Sum_counts_last_ten_seconds (pre : List Int) (tn : Int)
    (hsorted : (pre ++ [tn]).Pairwise (fun a b => a ≤ b))
    (hrange : ∀ t ∈ pre ++ [tn], -(2 ^ 63) + 10 ≤ t ∧ t < 2 ^ 63)
    (hlen : (pre ++ [tn]).length < 2 ^ 64) :
    Sum (IncrementAll (pre ++ [tn])) tn
        = (pre ++ [tn]).countP (fun t => decide (tn - 10 < t)) ∧
    (∀ t ∈ pre ++ [tn], t ≤ tn - 10 → bucketValue (IncrementAll (pre ++ [tn])) t = none) := by
  have hlast : tn ∈ pre ++ [tn] := List.mem_append_right _ (List.mem_singleton_self tn)
  have htn := hrange tn hlast
  have hw : wrapInt64 (tn - 10) = tn - 10 := wrapInt64_of_inRange _ (by omega) (by omega)
  have hle : ∀ a ∈ pre ++ [tn], a ≤ tn := by
    intro a ha
    rcases List.mem_append.mp ha with h | h
    · exact (List.pairwise_append.mp hsorted).2.2 a h tn (List.mem_singleton_self tn)
    · rw [List.mem_singleton] at h
      omega
  have hinv := fun k => bucketValue_IncrementAll k (pre ++ [tn]) hsorted hrange hlen
  have hnd := keys_IncrementAll_nodup (pre ++ [tn])
  have hentry : ∀ e ∈ (IncrementAll (pre ++ [tn])).Buckets,
      (IncrementAll (pre ++ [tn])).Value e.2 = (pre ++ [tn]).count e.1 ∧
      tn - 10 < e.1 ∧ e.1 ∈ pre ++ [tn] := by
    intro e he
    have hget : mapGet (IncrementAll (pre ++ [tn])).Buckets e.1 = some e.2 :=
      mapGet_of_mem_nodup _ e.1 e.2 hnd he
    have hbv : bucketValue (IncrementAll (pre ++ [tn])) e.1
        = some ((IncrementAll (pre ++ [tn])).Value e.2) := by
      unfold bucketValue
      rw [hget]
      rfl
    by_cases hall : ∀ t ∈ pre ++ [tn], t - 10 < e.1
    · by_cases hmem : e.1 ∈ pre ++ [tn]
      · have h := (hinv e.1).1 hall hmem
        rw [hbv] at h
        exact ⟨Option.some.inj h, hall tn hlast, hmem⟩
      · have h := (hinv e.1).2 (Or.inr hmem)
        rw [hbv] at h
        cases h
    · have h := (hinv e.1).2 (Or.inl hall)
      rw [hbv] at h
      cases h
  have hwin : window (IncrementAll (pre ++ [tn])) tn = (IncrementAll (pre ++ [tn])).Buckets := by
    unfold window
    rw [hw]
    exact List.filter_eq_self.mpr (fun e he => decide_eq_true (le_of_lt (hentry e he).2.1))
  have hvals : valuesOf (IncrementAll (pre ++ [tn])) (IncrementAll (pre ++ [tn])).Buckets
      = ((IncrementAll (pre ++ [tn])).Buckets.map Prod.fst).map
          (fun x => (pre ++ [tn]).count x) := by
    unfold valuesOf
    rw [List.map_map]
    exact List.map_congr_left (fun e he => (hentry e he).1)
  have hperm : List.Perm ((IncrementAll (pre ++ [tn])).Buckets.map Prod.fst)
      ((pre ++ [tn]).dedup.filter (fun t => decide (tn - 10 < t))) := by
    rw [List.perm_ext_iff_of_nodup hnd ((List.nodup_dedup _).filter _)]
    intro x
    rw [List.mem_filter, List.mem_dedup, decide_eq_true_iff]
    constructor
    · intro hx
      obtain ⟨e, he, rfl⟩ := List.mem_map.mp hx
      exact ⟨(hentry e he).2.2, (hentry e he).2.1⟩
    · rintro ⟨hmem, hrec⟩
      have hall : ∀ t ∈ pre ++ [tn], t - 10 < x := by
        intro t ht
        have := hle t ht
        omega
      have hbv := (hinv x).1 hall hmem
      unfold bucketValue at hbv
      cases hget : mapGet (IncrementAll (pre ++ [tn])).Buckets x with
      | none => rw [hget] at hbv; cases hbv
      | some p => exact List.mem_map.mpr ⟨(x, p), mapGet_mem _ _ _ hget, rfl⟩
  have hsum : (valuesOf (IncrementAll (pre ++ [tn])) (IncrementAll (pre ++ [tn])).Buckets).sum
      = (pre ++ [tn]).countP (fun t => decide (tn - 10 < t)) := by
    rw [hvals, (hperm.map _).sum_eq]
    exact List.sum_map_count_dedup_filter_eq_countP _ _
  constructor
  · rw [Sum_eq_window_sum, hwin, hsum]
    apply Nat.mod_eq_of_lt
    have := List.countP_le_length (fun t => decide (tn - 10 < t)) (l := pre ++ [tn])
    omega
  · intro t _ hold
    refine (hinv t).2 (Or.inl (fun hall => ?_))
    have := hall tn hlast
    omega

/-- C17, instance: increments at the seconds 90, 95, 95, 100, 101, 105; at
second 105 the three increments of the seconds 100, 101, 105 are counted. -/
theorem Sum_counts_last_ten_seconds_witness :
    Sum (IncrementAll ([90, 95, 95, 100, 101] ++ [105])) 105 = 3 ∧
    bucketValue (IncrementAll ([90, 95, 95, 100, 101] ++ [105])) 95 = none := by
  have hrange : ∀ t ∈ ([90, 95, 95, 100, 101] : List Int) ++ [105],
      -(2 ^ 63) + 10 ≤ t ∧ t < 2 ^ 63 := by
    intro t ht
    simp only [List.cons_append, List.nil_append, List.mem_cons, List.mem_singleton,
      List.not_mem_nil, or_false] at ht
    omega
  have h := Sum_counts_last_ten_seconds [90, 95, 95, 100, 101] 105 (by decide) hrange
    (by decide)
  refine ⟨?_, h.2 95 (by decide) (by decide)⟩
  rw [h.1]
  decide

end Rolling
